import Mathlib

/-!
Verification development for the esp-agent repository's text post-processing
and configuration-reconciliation pipeline.

Python strings are modelled as `List Char`; the Python `str` primitives used
by the source (`strip`, `split`, `join`, `startswith`, `endswith`, substring
`in`, `readlines`, `rfind`) are given explicit executable models below, and
the repository functions (`update_sdkconfig`, the code extractor inside
`generate_code`, `parse_wiring_diagram_text`, `read_design`, the step graph)
are translated on top of them.
-/

set_option maxRecDepth 100000

namespace EspAgent

/-- Python `str.strip()` whitespace set (ASCII part, which is all the
source's inputs use). -/
def pyWS (c : Char) : Bool :=
  c = ' ' || c = '\t' || c = '\n' || c = '\r' || c = '\x0b' || c = '\x0c'

/-- Left strip, as in Python `str.lstrip()`. -/
def lstrip (l : List Char) : List Char := l.dropWhile pyWS

/-- Right strip, as in Python `str.rstrip()`. -/
def rstrip (l : List Char) : List Char := (lstrip l.reverse).reverse

/-- Python `str.strip()`. -/
def pstrip (l : List Char) : List Char := rstrip (lstrip l)

/-- Python `pat in s` (substring test) helper: does `s` start with `p`? -/
def liStarts : List Char → List Char → Bool
  | [], _ => true
  | _ :: _, [] => false
  | p :: ps, c :: cs => p = c && liStarts ps cs

/-- Python `str.endswith`. -/
def liEnds (p s : List Char) : Bool := liStarts p.reverse s.reverse

/-- Python substring containment `p in s`. -/
def liInfix (p : List Char) : List Char → Bool
  | [] => liStarts p []
  | c :: cs => liStarts p (c :: cs) || liInfix p cs

/-- Python `str.split(sep)` for a one-character separator. -/
def splitCh (sep : Char) : List Char → List (List Char)
  | [] => [[]]
  | c :: cs =>
    if c = sep then [] :: splitCh sep cs
    else
      match splitCh sep cs with
      | [] => [[c]]
      | l :: ls => (c :: l) :: ls

/-- Python `'\n'.join` (specialised to the one join character the source uses,
generalised over the separator). -/
def joinCh (sep : Char) : List (List Char) → List Char
  | [] => []
  | [l] => l
  | l :: ls => l ++ sep :: joinCh sep ls

/-- Python file `readlines()`: split after every newline, keeping the
newline characters, with no empty trailing line. -/
def readlines : List Char → List (List Char)
  | [] => []
  | c :: cs =>
    if c = '\n' then ['\n'] :: readlines cs
    else
      match readlines cs with
      | [] => [[c]]
      | l :: ls => (c :: l) :: ls

/-! ## Configuration Reconciler: `scripts/configure_lvgl_fonts.py`, `update_sdkconfig` -/

/-- `all_sizes` from `update_sdkconfig`. -/
def allSizes : List Nat := [20, 22, 24, 26, 28, 30, 32, 34, 36]

/-- The tracked-key marker `'CONFIG_LV_FONT_MONTSERRAT_'` used to filter old
config lines. -/
def fontMarker : List Char := "CONFIG_LV_FONT_MONTSERRAT_".toList

/-- One synthesized sdkconfig font line without its trailing newline:
`CONFIG_LV_FONT_MONTSERRAT_<size>=y` when enabled, else
`# CONFIG_LV_FONT_MONTSERRAT_<size> is not set`. -/
def fontLineCore (size : Nat) (enabled : Bool) : List Char :=
  if enabled then
    "CONFIG_LV_FONT_MONTSERRAT_".toList ++ (toString size).toList ++ "=y".toList
  else
    "# CONFIG_LV_FONT_MONTSERRAT_".toList ++ (toString size).toList ++ " is not set".toList

/-- One synthesized sdkconfig font line, with the `"\n"` the Python f-string
appends. -/
def fontLine (size : Nat) (enabled : Bool) : List Char :=
  fontLineCore size enabled ++ ['\n']

/-- `new_font_config` built by `update_sdkconfig`: one line per size of the
known universe, enabled exactly when `str(size) in fonts_used`. -/
def newFontConfig (fontsUsed : List (List Char)) : List (List Char) :=
  allSizes.map (fun s => fontLine s (fontsUsed.contains (toString s).toList))

/-- `config_lines` of `update_sdkconfig`: `readlines()` of the existing file,
or `[]` when the file does not exist (`content = none`). -/
def configLinesOf (content : Option (List Char)) : List (List Char) :=
  match content with
  | none => []
  | some c => readlines c

/-- `filtered_lines` of `update_sdkconfig`: every line whose content does not
contain the tracked-key marker. -/
def filteredLines (content : Option (List Char)) : List (List Char) :=
  (configLinesOf content).filter (fun l => !liInfix fontMarker l)

/-- `update_sdkconfig(sdkconfig_path, fonts_used)`: `content` is the current
file content (`none` when the file does not exist); the result is the byte
content written back.  Mirrors: read lines, drop every line containing the
marker, extend with the fresh font block, `writelines` (plain
concatenation). -/
def updateSdkconfig (content : Option (List Char)) (fontsUsed : List (List Char)) :
    List Char :=
  (filteredLines content ++ newFontConfig fontsUsed).flatten

example : updateSdkconfig none [] =
    (String.intercalate "\n"
      ["# CONFIG_LV_FONT_MONTSERRAT_20 is not set",
       "# CONFIG_LV_FONT_MONTSERRAT_22 is not set",
       "# CONFIG_LV_FONT_MONTSERRAT_24 is not set",
       "# CONFIG_LV_FONT_MONTSERRAT_26 is not set",
       "# CONFIG_LV_FONT_MONTSERRAT_28 is not set",
       "# CONFIG_LV_FONT_MONTSERRAT_30 is not set",
       "# CONFIG_LV_FONT_MONTSERRAT_32 is not set",
       "# CONFIG_LV_FONT_MONTSERRAT_34 is not set",
       "# CONFIG_LV_FONT_MONTSERRAT_36 is not set", ""]).toList := by decide

example :
    updateSdkconfig (some "A=y\nCONFIG_LV_FONT_MONTSERRAT_20=y\nB=y\n".toList) ["24".toList]
      = "A=y\nB=y\n".toList ++ (newFontConfig ["24".toList]).flatten := by decide

/-! ### Structural lemmas about the string primitives -/

theorem liStarts_iff (p s : List Char) : liStarts p s = true ↔ ∃ v, s = p ++ v := by
  induction p generalizing s with
  | nil => simp [liStarts]
  | cons a ps ih =>
    cases s with
    | nil => simp [liStarts]
    | cons c cs =>
      simp only [liStarts, Bool.and_eq_true, decide_eq_true_eq, ih]
      constructor
      · rintro ⟨rfl, v, rfl⟩; exact ⟨v, rfl⟩
      · rintro ⟨v, hv⟩
        injection hv with h1 h2
        exact ⟨h1.symm, v, h2⟩

theorem liInfix_iff (p s : List Char) : liInfix p s = true ↔ ∃ u v, s = u ++ p ++ v := by
  induction s with
  | nil =>
    simp only [liInfix, liStarts_iff]
    constructor
    · rintro ⟨v, hv⟩
      exact ⟨[], v, by simpa using hv⟩
    · rintro ⟨u, v, huv⟩
      have hu : u = [] := by
        cases u with
        | nil => rfl
        | cons a as => simp at huv
      subst hu
      exact ⟨v, by simpa using huv⟩
  | cons c cs ih =>
    simp only [liInfix, Bool.or_eq_true, liStarts_iff, ih]
    constructor
    · rintro (⟨v, hv⟩ | ⟨u, v, huv⟩)
      · exact ⟨[], v, by simpa using hv⟩
      · exact ⟨c :: u, v, by simp [huv]⟩
    · rintro ⟨u, v, huv⟩
      cases u with
      | nil => exact Or.inl ⟨v, by simpa using huv⟩
      | cons a as =>
        injection huv with h1 h2
        exact Or.inr ⟨as, v, h2⟩

theorem liEnds_single_iff (ch : Char) (s : List Char) :
    liEnds [ch] s = true ↔ ∃ core, s = core ++ [ch] := by
  unfold liEnds
  rw [liStarts_iff]
  constructor
  · rintro ⟨v, hv⟩
    refine ⟨v.reverse, ?_⟩
    have := congrArg List.reverse hv
    simpa using this
  · rintro ⟨core, rfl⟩
    exact ⟨core.reverse, by simp⟩

/-- A well-formed written line: some newline-free core followed by `'\n'`. -/
def WfNL (l : List Char) : Prop := ∃ core, l = core ++ ['\n'] ∧ '\n' ∉ core

theorem readlines_append (core : List Char) (h : '\n' ∉ core) (rest : List Char) :
    readlines (core ++ '\n' :: rest) = (core ++ ['\n']) :: readlines rest := by
  induction core with
  | nil => simp [readlines]
  | cons c cs ih =>
    have hc : c ≠ '\n' := fun hc => h (by simp [hc])
    have hcs : '\n' ∉ cs := fun hm => h (by simp [hm])
    simp only [List.cons_append, readlines, if_neg hc, List.append_eq, ih hcs]

theorem readlines_flatten_wf (ls : List (List Char)) (h : ∀ l ∈ ls, WfNL l) :
    readlines ls.flatten = ls := by
  induction ls with
  | nil => simp [readlines]
  | cons l ls ih =>
    obtain ⟨core, rfl, hcore⟩ := h l (List.mem_cons_self _ _)
    have : (core ++ ['\n']) ++ ls.flatten = core ++ '\n' :: ls.flatten := by simp
    rw [List.flatten_cons, this, readlines_append core hcore]
    rw [ih (fun l hl => h l (List.mem_cons_of_mem _ hl))]

theorem liEnds_cons_iff (a : Char) {cs : List Char} (hcs : cs ≠ []) (ch : Char) :
    liEnds [ch] (a :: cs) = true ↔ liEnds [ch] cs = true := by
  rw [liEnds_single_iff, liEnds_single_iff]
  constructor
  · rintro ⟨core, hcore⟩
    cases core with
    | nil =>
      injection hcore with _ h2
      exact absurd h2 hcs
    | cons b bs =>
      injection hcore with _ h2
      exact ⟨bs, h2⟩
  · rintro ⟨core, rfl⟩
    exact ⟨a :: core, rfl⟩

theorem liEnds_cons_nil_elim {a ch : Char} (h : liEnds [ch] [a] = true) : a = ch := by
  rcases (liEnds_single_iff _ _).mp h with ⟨core, hcore⟩
  cases core with
  | nil => simpa using hcore
  | cons b bs =>
    injection hcore with _ h2
    exact absurd h2.symm (by simp)

theorem readlines_ne_nil {c : List Char} (h : c ≠ []) : readlines c ≠ [] := by
  cases c with
  | nil => exact absurd rfl h
  | cons a cs =>
    by_cases ha : a = '\n'
    · simp [readlines, ha]
    · cases hrl : readlines cs with
      | nil => simp [readlines, if_neg ha, hrl]
      | cons l ls => simp [readlines, if_neg ha, hrl]

theorem readlines_wf (c : List Char) : liEnds ['\n'] c = true → ∀ l ∈ readlines c, WfNL l := by
  induction c with
  | nil => intro h; simp [liEnds, liStarts] at h
  | cons a cs ih =>
    intro h l hl
    by_cases ha : a = '\n'
    · subst ha
      simp only [readlines, reduceIte, List.mem_cons] at hl
      rcases hl with rfl | hl'
      · exact ⟨[], rfl, by simp⟩
      · have hcs : cs ≠ [] := by
          intro hnil; subst hnil; simp [readlines] at hl'
        exact ih ((liEnds_cons_iff _ hcs _).mp h) l hl'
    · have hcs : cs ≠ [] := by
        intro hnil; subst hnil
        exact ha (liEnds_cons_nil_elim h)
      have hends : liEnds ['\n'] cs = true := (liEnds_cons_iff _ hcs _).mp h
      cases hrl : readlines cs with
      | nil => exact absurd hrl (readlines_ne_nil hcs)
      | cons l' ls' =>
        simp only [readlines, if_neg ha, hrl, List.mem_cons] at hl
        rcases hl with rfl | hl'
        · obtain ⟨core, hc, hn⟩ := ih hends l' (by rw [hrl]; exact List.mem_cons_self _ _)
          refine ⟨a :: core, by simp [hc], ?_⟩
          intro hm
          rcases List.mem_cons.mp hm with h1 | h2
          · exact ha h1.symm
          · exact hn h2
        · exact ih hends l (by rw [hrl]; exact List.mem_cons_of_mem _ hl')

theorem splitCh_append (sep : Char) (core : List Char) (h : sep ∉ core) (rest : List Char) :
    splitCh sep (core ++ sep :: rest) = core :: splitCh sep rest := by
  induction core with
  | nil => simp [splitCh]
  | cons c cs ih =>
    have hc : c ≠ sep := fun hc => h (by simp [hc])
    have hcs : sep ∉ cs := fun hm => h (by simp [hm])
    simp only [List.cons_append, splitCh, if_neg hc, List.append_eq, ih hcs]

theorem splitCh_flatten_wf (ls : List (List Char))
    (h : ∀ l ∈ ls, ∃ core, l = core ++ ['\n'] ∧ '\n' ∉ core) :
    splitCh '\n' ls.flatten = ls.map (fun l => l.dropLast) ++ [[]] := by
  induction ls with
  | nil => simp [splitCh]
  | cons l ls ih =>
    obtain ⟨core, rfl, hcore⟩ := h l (List.mem_cons_self _ _)
    have hstep : (core ++ ['\n']) ++ ls.flatten = core ++ '\n' :: ls.flatten := by simp
    rw [List.flatten_cons, hstep, splitCh_append '\n' core hcore]
    rw [ih (fun l hl => h l (List.mem_cons_of_mem _ hl))]
    simp [List.dropLast_concat]

theorem liInfix_dropLast {p l : List Char} (h : liInfix p l.dropLast = true) :
    liInfix p l = true := by
  rcases (liInfix_iff _ _).mp h with ⟨u, v, huv⟩
  rcases List.eq_nil_or_concat l with rfl | ⟨l', a, rfl⟩
  · simpa using h
  · rw [List.concat_eq_append, List.dropLast_concat] at huv
    exact (liInfix_iff _ _).mpr ⟨u, v ++ [a], by simp [huv]⟩

/-! ### Facts about the synthesized font lines (decidable checks over the
fixed universe) -/

theorem fontLineCore_no_nl : ∀ s ∈ allSizes, ∀ b : Bool, '\n' ∉ fontLineCore s b := by decide

theorem fontLineCore_marker : ∀ s ∈ allSizes, ∀ b : Bool,
    liInfix fontMarker (fontLineCore s b) = true := by decide

theorem fontLineCore_ne_nil : ∀ s ∈ allSizes, ∀ b : Bool, fontLineCore s b ≠ [] := by decide

theorem fontLineCore_inj : ∀ s ∈ allSizes, ∀ s' ∈ allSizes, ∀ b b' : Bool,
    fontLineCore s b = fontLineCore s' b' → s = s' := by decide

theorem fontLine_wf (s : Nat) (hs : s ∈ allSizes) (b : Bool) : WfNL (fontLine s b) :=
  ⟨fontLineCore s b, rfl, fontLineCore_no_nl s hs b⟩

theorem fontLine_marker : ∀ s ∈ allSizes, ∀ b : Bool,
    liInfix fontMarker (fontLine s b) = true := by decide

/-- Newline-termination hypothesis on the starting file state: missing file,
empty file, or content whose final line has a trailing newline. -/
def NLTerminated (content : Option (List Char)) : Prop :=
  content = none ∨ content = some [] ∨ ∃ c, content = some c ∧ liEnds ['\n'] c = true

theorem filteredLines_wf (content : Option (List Char)) (h : NLTerminated content) :
    ∀ l ∈ filteredLines content, WfNL l := by
  intro l hl
  have hl' : l ∈ configLinesOf content := (List.mem_filter.mp hl).1
  rcases h with rfl | rfl | ⟨c, rfl, hc⟩
  · simp [configLinesOf] at hl'
  · simp [configLinesOf, readlines] at hl'
  · exact readlines_wf c hc l hl'

theorem newFontConfig_wf (fonts : List (List Char)) : ∀ l ∈ newFontConfig fonts, WfNL l := by
  intro l hl
  rcases List.mem_map.mp hl with ⟨s, hs, rfl⟩
  exact fontLine_wf s hs _

theorem readlines_updateSdkconfig (content : Option (List Char)) (fonts : List (List Char))
    (h : NLTerminated content) :
    readlines (updateSdkconfig content fonts) = filteredLines content ++ newFontConfig fonts := by
  apply readlines_flatten_wf
  intro l hl
  rcases List.mem_append.mp hl with h1 | h2
  · exact filteredLines_wf content h l h1
  · exact newFontConfig_wf fonts l h2

theorem filter_newFontConfig (fonts : List (List Char)) :
    (newFontConfig fonts).filter (fun l => !liInfix fontMarker l) = [] := by
  rw [List.filter_eq_nil_iff]
  intro l hl
  rcases List.mem_map.mp hl with ⟨s, hs, rfl⟩
  simp [fontLine_marker s hs]

/-- **C1** (amended).  Re-running `update_sdkconfig` with the same
`fonts_used` reproduces the file byte-for-byte, provided the starting file is
missing, empty, or newline-terminated. -/
theorem claim_C1_reconcile_idempotent (content : Option (List Char))
    (fonts : List (List Char)) (h : NLTerminated content) :
    updateSdkconfig (some (updateSdkconfig content fonts)) fonts
      = updateSdkconfig content fonts := by
  show (filteredLines (some (updateSdkconfig content fonts)) ++ newFontConfig fonts).flatten = _
  have hfl : filteredLines (some (updateSdkconfig content fonts)) = filteredLines content := by
    show (configLinesOf (some (updateSdkconfig content fonts))).filter _ = _
    have hcl : configLinesOf (some (updateSdkconfig content fonts))
        = filteredLines content ++ newFontConfig fonts := by
      show readlines (updateSdkconfig content fonts) = _
      exact readlines_updateSdkconfig content fonts h
    rw [hcl, List.filter_append, filter_newFontConfig, List.append_nil]
    apply List.filter_eq_self.mpr
    intro l hl
    exact (List.mem_filter.mp hl).2
  rw [hfl]
  rfl

/-- **C1** (counterexample to the claim as stated).  Starting from a file
whose single line `FOO=y` lacks a trailing newline, the first pass glues the
first synthesized font line onto it; the second pass then removes the glued
line entirely, so the two passes do not agree byte-for-byte. -/
theorem claim_C1_counterexample :
    updateSdkconfig (some (updateSdkconfig (some "FOO=y".toList) [])) []
      ≠ updateSdkconfig (some "FOO=y".toList) [] := by decide

/-- Witness for `claim_C1_reconcile_idempotent` at a concrete
newline-terminated file. -/
theorem claim_C1_witness :
    NLTerminated (some "A=1\nCONFIG_LV_FONT_MONTSERRAT_22=y\n".toList) ∧
    updateSdkconfig
        (some (updateSdkconfig (some "A=1\nCONFIG_LV_FONT_MONTSERRAT_22=y\n".toList)
          ["24".toList]))
        ["24".toList]
      = updateSdkconfig (some "A=1\nCONFIG_LV_FONT_MONTSERRAT_22=y\n".toList) ["24".toList] :=
  ⟨Or.inr (Or.inr ⟨_, rfl, by decide⟩),
   claim_C1_reconcile_idempotent _ _ (Or.inr (Or.inr ⟨_, rfl, by decide⟩))⟩

/-- The sdkconfig line the claim expects for `size` after reconciliation
(without its newline): enabled form when `str(size) in fonts_used`, disabled
placeholder otherwise. -/
def expectedFontLine (fonts : List (List Char)) (s : Nat) : List Char :=
  fontLineCore s (fonts.contains (toString s).toList)

theorem splitCh_updateSdkconfig (content : Option (List Char)) (fonts : List (List Char))
    (h : NLTerminated content) :
    splitCh '\n' (updateSdkconfig content fonts)
      = (filteredLines content).map (fun l => l.dropLast)
        ++ allSizes.map (expectedFontLine fonts) ++ [[]] := by
  show splitCh '\n' (filteredLines content ++ newFontConfig fonts).flatten = _
  rw [splitCh_flatten_wf _ (fun l hl => by
    rcases List.mem_append.mp hl with h1 | h2
    · exact filteredLines_wf content h l h1
    · exact newFontConfig_wf fonts l h2)]
  have hblk : (newFontConfig fonts).map (fun l => l.dropLast)
      = allSizes.map (expectedFontLine fonts) := by
    rw [newFontConfig, List.map_map]
    apply List.map_congr_left
    intro s _
    show (fontLine s _).dropLast = _
    rw [fontLine, List.dropLast_concat]
    rfl
  rw [List.map_append, hblk]

theorem allSizes_nodup : allSizes.Nodup := by decide

theorem count_eq_one_of_nodup_mem {α : Type} [BEq α] [LawfulBEq α] {l : List α} {a : α}
    (hnd : l.Nodup) (h : a ∈ l) : l.count a = 1 := by
  induction l with
  | nil => simp at h
  | cons b bs ih =>
    have hb : b ∉ bs := (List.nodup_cons.mp hnd).1
    have hbs : bs.Nodup := (List.nodup_cons.mp hnd).2
    rcases List.mem_cons.mp h with rfl | hmem
    · have hz : bs.count a = 0 := List.count_eq_zero.mpr hb
      rw [List.count_cons, hz, beq_self_eq_true]
      simp
    · have hne : (b == a) = false := by
        rcases hbeq : b == a with _ | _
        · rfl
        · exact absurd (eq_of_beq hbeq ▸ hmem) hb
      rw [List.count_cons, ih hbs hmem, hne]
      simp

/-- **C2** (amended).  After one application of `update_sdkconfig` on a
missing, empty, or newline-terminated starting file, the written file's lines
are: the marker-free surviving lines, followed by exactly the nine known-size
lines in ascending size order (enabled exactly for sizes in `fonts_used`),
followed by the empty chunk after the final newline; each known-size line
occurs exactly once among the file's lines. -/
theorem claim_C2_reconcile_complete (content : Option (List Char))
    (fonts : List (List Char)) (h : NLTerminated content) :
    ∃ pre,
      splitCh '\n' (updateSdkconfig content fonts)
          = pre ++ allSizes.map (expectedFontLine fonts) ++ [[]]
        ∧ (∀ l ∈ pre, liInfix fontMarker l = false)
        ∧ ∀ s ∈ allSizes,
            (splitCh '\n' (updateSdkconfig content fonts)).count (expectedFontLine fonts s)
              = 1 := by
  refine ⟨(filteredLines content).map (fun l => l.dropLast),
    splitCh_updateSdkconfig content fonts h, ?_, ?_⟩
  · intro l hl
    rcases List.mem_map.mp hl with ⟨l0, hl0, rfl⟩
    have hm : liInfix fontMarker l0 = false := by
      have := (List.mem_filter.mp hl0).2
      simpa using this
    cases hdl : liInfix fontMarker l0.dropLast with
    | false => rfl
    | true => rw [liInfix_dropLast hdl] at hm; exact absurd hm (by simp)
  · intro s hs
    rw [splitCh_updateSdkconfig content fonts h, List.count_append, List.count_append]
    have hpre : ((filteredLines content).map (fun l => l.dropLast)).count
        (expectedFontLine fonts s) = 0 := by
      rw [List.count_eq_zero]
      intro hmem
      rcases List.mem_map.mp hmem with ⟨l0, hl0, heq⟩
      have hm : liInfix fontMarker l0 = false := by
        have := (List.mem_filter.mp hl0).2
        simpa using this
      have : liInfix fontMarker l0.dropLast = true := by
        rw [heq]
        exact fontLineCore_marker s hs _
      rw [liInfix_dropLast this] at hm
      exact absurd hm (by simp)
    have hblk : (allSizes.map (expectedFontLine fonts)).count (expectedFontLine fonts s) = 1 := by
      have hnd : (allSizes.map (expectedFontLine fonts)).Nodup := by
        refine List.Nodup.map_on ?_ allSizes_nodup
        intro x hx y hy hxy
        exact fontLineCore_inj x hx y hy _ _ hxy
      have hmem : expectedFontLine fonts s ∈ allSizes.map (expectedFontLine fonts) :=
        List.mem_map_of_mem _ hs
      exact count_eq_one_of_nodup_mem hnd hmem
    have hnil : ([([] : List Char)]).count (expectedFontLine fonts s) = 0 := by
      rw [List.count_eq_zero]
      intro hmem
      rcases List.mem_singleton.mp hmem with heq
      exact fontLineCore_ne_nil s hs _ heq
    omega

/-- **C2** (counterexample to the claim as stated).  Starting from a file
whose final line `BAR=1` lacks a trailing newline, the size-20 disabled line
is glued onto it by `writelines` and therefore never appears as its own
line. -/
theorem claim_C2_counterexample :
    (["24".toList, "32".toList].contains "20".toList = false) ∧
    (splitCh '\n' (updateSdkconfig (some "BAR=1".toList) ["24".toList, "32".toList])).count
        (fontLineCore 20 false) = 0 := by decide

/-- Witness for `claim_C2_reconcile_complete` with `fonts_used = {24, 32}` on
a concrete newline-terminated file, matching end-to-end scenario B. -/
theorem claim_C2_witness :
    NLTerminated (some "CONFIG_LV_FONT_MONTSERRAT_20=y\nKEEP=1\n".toList) ∧
    ∃ pre,
      splitCh '\n' (updateSdkconfig (some "CONFIG_LV_FONT_MONTSERRAT_20=y\nKEEP=1\n".toList)
            ["24".toList, "32".toList])
          = pre ++ allSizes.map (expectedFontLine ["24".toList, "32".toList]) ++ [[]]
        ∧ (∀ l ∈ pre, liInfix fontMarker l = false)
        ∧ ∀ s ∈ allSizes,
            (splitCh '\n' (updateSdkconfig
                (some "CONFIG_LV_FONT_MONTSERRAT_20=y\nKEEP=1\n".toList)
                ["24".toList, "32".toList])).count
              (expectedFontLine ["24".toList, "32".toList] s) = 1 :=
  ⟨Or.inr (Or.inr ⟨_, rfl, by decide⟩),
   claim_C2_reconcile_complete _ _ (Or.inr (Or.inr ⟨_, rfl, by decide⟩))⟩

/-! ## Code Extractor: `agent/graph.py`, cleanup part of `generate_code`
(and the `agent_arduino/graph.py` variant) -/

/-- The end-of-code test in the extractor's line loop: the loop `break`s at
the first line for which this is true.  Mirrors the four disjuncts on
`line.upper()` / `line.strip()` / `line.lower()`. -/
def isEndMarker (line : List Char) : Bool :=
  liInfix "**WIRING DIAGRAM**".toList (line.map Char.toUpper) ||
  liInfix "**CONNECTION".toList (line.map Char.toUpper) ||
  liInfix "=== WIRING".toList (line.map Char.toUpper) ||
  (liStarts "# ".toList (pstrip line) && liInfix "wiring".toList (line.map Char.toLower))

/-- First fence cleanup: `if code.startswith('```c'): code = code[4:].strip()`. -/
def stripFenceC (code : List Char) : List Char :=
  if liStarts "```c".toList code then pstrip (code.drop 4) else code

/-- Second fence cleanup: `if code.startswith('```'): code = code[3:].strip()`. -/
def stripFencePlain (code : List Char) : List Char :=
  if liStarts "```".toList code then pstrip (code.drop 3) else code

/-- Third fence cleanup: `if code.endswith('```'): code = code[:-3].strip()`. -/
def stripFenceEnd (code : List Char) : List Char :=
  if liEnds "```".toList code then pstrip (code.take (code.length - 3)) else code

/-- The three sequential markdown-fence cleanups of `generate_code`. -/
def stripFences (code : List Char) : List Char :=
  stripFenceEnd (stripFencePlain (stripFenceC code))

/-- The line loop: keep lines until the first end-of-code marker, re-join
with newlines, `strip()`. -/
def truncateSections (code : List Char) : List Char :=
  pstrip (joinCh '\n' ((splitCh '\n' code).takeWhile (fun l => !isEndMarker l)))

/-- Python `str.rfind(ch)` restricted to success (`none` when `ch` is
absent, i.e. when `'}' in code` is false). -/
def rfind (ch : Char) : List Char → Option Nat
  | [] => none
  | c :: cs =>
    match rfind ch cs with
    | some i => some (i + 1)
    | none => if c = ch then some 0 else none

/-- The final cleanup: when a closing brace exists, look at the content after
the last one; if it is non-empty after stripping and does not start a `//`
comment, truncate at the brace (and `strip()`). -/
def braceTruncate (code : List Char) : List Char :=
  match rfind '}' code with
  | none => code
  | some i =>
    let pe := pstrip (code.drop (i + 1))
    if !pe.isEmpty && !liStarts "//".toList pe then pstrip (code.take (i + 1)) else code

/-- The whole extractor applied to the raw model response
(`response.content.strip()` followed by the three cleanup stages). -/
def extractCode (raw : List Char) : List Char :=
  braceTruncate (truncateSections (stripFences (pstrip raw)))

/-- Python `code.split('\n', 1)[1]`: the content after the first newline,
`none` when there is no newline (in which case the Python indexing raises). -/
def afterFirstNL : List Char → Option (List Char)
  | [] => none
  | c :: cs => if c = '\n' then some cs else afterFirstNL cs

/-- The `agent_arduino` fence cleanup: an extra first branch dropping the
whole opener line for `'```cpp'`/`'```c++'`/`'```arduino'` (which raises when
the text has no newline, modelled as `none`), then the same three cleanups. -/
def stripFencesArduino (code : List Char) : Option (List Char) :=
  if liStarts "```cpp".toList code || liStarts "```c++".toList code ||
      liStarts "```arduino".toList code then
    match afterFirstNL code with
    | none => none
    | some rest => some (stripFences (pstrip rest))
  else some (stripFences code)

/-- The whole `agent_arduino` extractor (its line loop and brace cleanup are
textually identical to the `agent` ones). -/
def extractCodeArduino (raw : List Char) : Option (List Char) :=
  (stripFencesArduino (pstrip raw)).map (fun c => braceTruncate (truncateSections c))

example : extractCode "```c\nint main() { return 0; }\n```".toList
    = "int main() { return 0; }".toList := by decide

example : extractCode "#include <a.h>\nvoid app_main() {}\n\n**WIRING DIAGRAM**\nLED to GPIO".toList
    = "#include <a.h>\nvoid app_main() {}".toList := by decide

example : extractCodeArduino "```cpp\nvoid setup() {}\n```".toList
    = some "void setup() {}".toList := by decide

example : extractCodeArduino "```cpp".toList = none := by decide

/-! ### Strip-primitive lemmas -/

theorem lstrip_cons_ws {c : Char} (h : pyWS c = true) (r : List Char) :
    lstrip (c :: r) = lstrip r := by
  simp [lstrip, List.dropWhile_cons, h]

theorem lstrip_cons_not_ws {c : Char} (h : pyWS c = false) (r : List Char) :
    lstrip (c :: r) = c :: r := by
  simp [lstrip, List.dropWhile_cons, h]

theorem lstrip_head {l : List Char} {c : Char} (h : (lstrip l).head? = some c) :
    pyWS c = false := by
  induction l with
  | nil => simp [lstrip] at h
  | cons a as ih =>
    cases ha : pyWS a with
    | true => rw [lstrip_cons_ws ha] at h; exact ih h
    | false => rw [lstrip_cons_not_ws ha] at h; simp at h; rwa [h] at ha

theorem lstrip_append (x y : List Char) :
    lstrip (x ++ y) = if lstrip x = [] then lstrip y else lstrip x ++ y := by
  induction x with
  | nil => simp [lstrip]
  | cons c cs ih =>
    cases hc : pyWS c with
    | true => rw [List.cons_append, lstrip_cons_ws hc, lstrip_cons_ws hc, ih]
    | false =>
      rw [List.cons_append, lstrip_cons_not_ws hc, lstrip_cons_not_ws hc]
      simp

theorem lstrip_decomp (l : List Char) : l = l.takeWhile pyWS ++ lstrip l :=
  (List.takeWhile_append_dropWhile pyWS l).symm

theorem lstrip_idem (l : List Char) : lstrip (lstrip l) = lstrip l := by
  cases h : lstrip l with
  | nil => simp [lstrip]
  | cons c cs =>
    have hc : pyWS c = false := lstrip_head (by rw [h]; rfl)
    rw [lstrip_cons_not_ws hc]

theorem rstrip_decomp (l : List Char) : l = rstrip l ++ (l.reverse.takeWhile pyWS).reverse := by
  have h : l.reverse = l.reverse.takeWhile pyWS ++ lstrip l.reverse :=
    (List.takeWhile_append_dropWhile pyWS l.reverse).symm
  calc l = l.reverse.reverse := by simp
    _ = (l.reverse.takeWhile pyWS ++ lstrip l.reverse).reverse := by rw [← h]
    _ = (lstrip l.reverse).reverse ++ (l.reverse.takeWhile pyWS).reverse :=
        List.reverse_append _ _
    _ = rstrip l ++ (l.reverse.takeWhile pyWS).reverse := rfl

theorem rstrip_cons_not_ws {c : Char} (h : pyWS c = false) (r : List Char) :
    rstrip (c :: r) = c :: rstrip r := by
  show (lstrip ((c :: r).reverse)).reverse = _
  rw [show (c :: r).reverse = r.reverse ++ [c] by simp, lstrip_append]
  cases hr : lstrip r.reverse with
  | nil => simp [lstrip_cons_not_ws h, rstrip, hr]
  | cons d ds => simp [rstrip, hr]

theorem rstrip_getLast {l : List Char} {c : Char} (h : (rstrip l).getLast? = some c) :
    pyWS c = false := by
  have h' : (lstrip l.reverse).head? = some c := by
    have := h
    rwa [show rstrip l = (lstrip l.reverse).reverse from rfl, List.getLast?_reverse] at this
  exact lstrip_head h'

theorem rstrip_eq_self_of_getLast {l : List Char}
    (h : ∀ c, l.getLast? = some c → pyWS c = false) : rstrip l = l := by
  show (lstrip l.reverse).reverse = l
  cases hl : l.reverse with
  | nil =>
    rw [List.reverse_eq_nil_iff] at hl
    subst hl
    rfl
  | cons a as =>
    have ha : l.getLast? = some a := by
      rw [← List.head?_reverse, hl]; rfl
    rw [lstrip_cons_not_ws (h a ha)]
    rw [← hl, List.reverse_reverse]

theorem rstrip_head {l : List Char} (h : rstrip l ≠ []) : (rstrip l).head? = l.head? := by
  conv_rhs => rw [rstrip_decomp l]
  cases hr : rstrip l with
  | nil => exact absurd hr h
  | cons a as => simp

theorem pstrip_cons_ws {c : Char} (h : pyWS c = true) (r : List Char) :
    pstrip (c :: r) = pstrip r := by
  show rstrip (lstrip (c :: r)) = rstrip (lstrip r)
  rw [lstrip_cons_ws h]

theorem pstrip_cons_not_ws {c : Char} (h : pyWS c = false) (r : List Char) :
    pstrip (c :: r) = c :: rstrip r := by
  show rstrip (lstrip (c :: r)) = _
  rw [lstrip_cons_not_ws h, rstrip_cons_not_ws h]

theorem pstrip_decomp (l : List Char) : ∃ u v, l = u ++ pstrip l ++ v := by
  refine ⟨l.takeWhile pyWS, ((lstrip l).reverse.takeWhile pyWS).reverse, ?_⟩
  conv_lhs => rw [lstrip_decomp l]
  rw [List.append_assoc]
  congr 1
  exact rstrip_decomp (lstrip l)

theorem pstrip_idem (l : List Char) : pstrip (pstrip l) = pstrip l := by
  have h1 : lstrip (pstrip l) = pstrip l := by
    cases h : pstrip l with
    | nil => rfl
    | cons c cs =>
      have hne : rstrip (lstrip l) ≠ [] := by
        show pstrip l ≠ []
        rw [h]; simp
      have hh : (rstrip (lstrip l)).head? = (lstrip l).head? := rstrip_head hne
      have hh2 : (lstrip l).head? = some c := by
        rw [← hh]
        show (pstrip l).head? = some c
        rw [h]; rfl
      have hc : pyWS c = false := lstrip_head hh2
      exact lstrip_cons_not_ws hc cs
  show rstrip (lstrip (pstrip l)) = pstrip l
  rw [h1]
  exact rstrip_eq_self_of_getLast (fun c hc => rstrip_getLast hc)

theorem mem_pstrip {c : Char} {l : List Char} (h : c ∈ pstrip l) : c ∈ l := by
  obtain ⟨u, v, huv⟩ := pstrip_decomp l
  rw [huv]
  simp [h]

theorem liInfix_pstrip {p l : List Char} (h : liInfix p (pstrip l) = true) :
    liInfix p l = true := by
  obtain ⟨u0, v0, huv0⟩ := pstrip_decomp l
  rcases (liInfix_iff _ _).mp h with ⟨u, v, huv⟩
  exact (liInfix_iff _ _).mpr ⟨u0 ++ u, v ++ v0, by rw [huv0, huv]; simp⟩

theorem liEnds_iff (p s : List Char) : liEnds p s = true ↔ ∃ core, s = core ++ p := by
  unfold liEnds
  rw [liStarts_iff]
  constructor
  · rintro ⟨v, hv⟩
    refine ⟨v.reverse, ?_⟩
    have := congrArg List.reverse hv
    simpa using this
  · rintro ⟨core, rfl⟩
    exact ⟨core.reverse, by simp⟩

/-! ### Split/join identities and `rfind` -/

theorem splitCh_ne_nil (sep : Char) (x : List Char) : splitCh sep x ≠ [] := by
  cases x with
  | nil => simp [splitCh]
  | cons c cs =>
    by_cases hc : c = sep
    · simp [splitCh, hc]
    · cases hs : splitCh sep cs with
      | nil => simp [splitCh, if_neg hc, hs]
      | cons l ls => simp [splitCh, if_neg hc, hs]

theorem joinCh_cons_cons (sep c : Char) (l : List Char) (ls : List (List Char)) :
    joinCh sep ((c :: l) :: ls) = c :: joinCh sep (l :: ls) := by
  cases ls with
  | nil => rfl
  | cons m ms => rfl

theorem joinCh_splitCh (sep : Char) (x : List Char) : joinCh sep (splitCh sep x) = x := by
  induction x with
  | nil => rfl
  | cons c cs ih =>
    by_cases hc : c = sep
    · subst hc
      rw [show splitCh c (c :: cs) = [] :: splitCh c cs by simp [splitCh]]
      cases hs : splitCh c cs with
      | nil => exact absurd hs (splitCh_ne_nil c cs)
      | cons l ls =>
        show joinCh c ([] :: l :: ls) = c :: cs
        rw [show joinCh c ([] :: l :: ls) = [] ++ c :: joinCh c (l :: ls) from rfl]
        rw [← hs, ih]
        rfl
    · cases hs : splitCh sep cs with
      | nil => exact absurd hs (splitCh_ne_nil sep cs)
      | cons l ls =>
        rw [show splitCh sep (c :: cs) = (c :: l) :: ls by simp [splitCh, if_neg hc, hs]]
        rw [joinCh_cons_cons, ← hs, ih]

theorem takeWhile_all {α : Type} {p : α → Bool} {l : List α} (h : ∀ a ∈ l, p a = true) :
    l.takeWhile p = l := by
  induction l with
  | nil => rfl
  | cons a as ih =>
    have ha := h a (List.mem_cons_self _ _)
    simp [List.takeWhile_cons, ha, ih (fun b hb => h b (List.mem_cons_of_mem _ hb))]

theorem truncateSections_no_marker {x : List Char}
    (h : ∀ l ∈ splitCh '\n' x, isEndMarker l = false) : truncateSections x = pstrip x := by
  unfold truncateSections
  rw [takeWhile_all (fun l hl => by rw [h l hl]; rfl), joinCh_splitCh]

theorem rfind_eq_none {ch : Char} {l : List Char} (h : ch ∉ l) : rfind ch l = none := by
  induction l with
  | nil => rfl
  | cons c cs ih =>
    have hc : c ≠ ch := fun hc => h (by simp [hc])
    have hcs : ch ∉ cs := fun hm => h (by simp [hm])
    rw [rfind, ih hcs]
    simp [hc]

theorem braceTruncate_of_none {x : List Char} (h : rfind '}' x = none) :
    braceTruncate x = x := by
  unfold braceTruncate
  rw [h]

theorem braceTruncate_decomp (x : List Char) : ∃ u v, x = u ++ braceTruncate x ++ v := by
  unfold braceTruncate
  cases hr : rfind '}' x with
  | none => exact ⟨[], [], by simp⟩
  | some i =>
    by_cases hcond : (!(pstrip (x.drop (i + 1))).isEmpty
        && !liStarts "//".toList (pstrip (x.drop (i + 1)))) = true
    · simp only [hcond, if_true]
      obtain ⟨u, v, huv⟩ := pstrip_decomp (x.take (i + 1))
      refine ⟨u, v ++ x.drop (i + 1), ?_⟩
      calc x = x.take (i + 1) ++ x.drop (i + 1) := (List.take_append_drop _ _).symm
        _ = (u ++ pstrip (x.take (i + 1)) ++ v) ++ x.drop (i + 1) := by rw [← huv]
        _ = u ++ pstrip (x.take (i + 1)) ++ (v ++ x.drop (i + 1)) := by simp
    · simp only [hcond, if_false]
      exact ⟨[], [], by simp⟩

theorem stripFences_id {s : List Char} (h : liInfix "```".toList s = false) :
    stripFences s = s := by
  have h1 : liStarts "```c".toList s = false := by
    cases hb : liStarts "```c".toList s with
    | false => rfl
    | true =>
      rcases (liStarts_iff _ _).mp hb with ⟨v, rfl⟩
      have : liInfix "```".toList ("```c".toList ++ v) = true :=
        (liInfix_iff _ _).mpr ⟨[], 'c' :: v, by simp⟩
      rw [this] at h
      exact absurd h (by simp)
  have h2 : liStarts "```".toList s = false := by
    cases hb : liStarts "```".toList s with
    | false => rfl
    | true =>
      rcases (liStarts_iff _ _).mp hb with ⟨v, rfl⟩
      have : liInfix "```".toList ("```".toList ++ v) = true :=
        (liInfix_iff _ _).mpr ⟨[], v, by simp⟩
      rw [this] at h
      exact absurd h (by simp)
  have h3 : liEnds "```".toList s = false := by
    cases hb : liEnds "```".toList s with
    | false => rfl
    | true =>
      rcases (liEnds_iff _ _).mp hb with ⟨core, rfl⟩
      have : liInfix "```".toList (core ++ "```".toList) = true :=
        (liInfix_iff _ _).mpr ⟨core, [], by simp⟩
      rw [this] at h
      exact absurd h (by simp)
  rw [stripFences]
  rw [show stripFenceC s = s by rw [stripFenceC, if_neg (by rw [h1]; simp)]]
  rw [show stripFencePlain s = s by rw [stripFencePlain, if_neg (by rw [h2]; simp)]]
  rw [stripFenceEnd, if_neg (by rw [h3]; simp)]

/-- **C7** (amended).  The extractor is a total function of the text (the
Python realisation raises on no path), and on input with no fence marker,
no closing brace, and no end-of-code marker line, it returns the trimmed
original text unchanged. -/
theorem claim_C7_extractor_identity (t : List Char)
    (hf : liInfix "```".toList t = false)
    (hb : '}' ∉ t)
    (hm : ∀ l ∈ splitCh '\n' (pstrip t), isEndMarker l = false) :
    extractCode t = pstrip t := by
  have hf' : liInfix "```".toList (pstrip t) = false := by
    cases hx : liInfix "```".toList (pstrip t) with
    | false => rfl
    | true => rw [liInfix_pstrip hx] at hf; exact absurd hf (by simp)
  rw [extractCode, stripFences_id hf', truncateSections_no_marker hm, pstrip_idem]
  exact braceTruncate_of_none (rfind_eq_none (fun hmem => hb (mem_pstrip hmem)))

/-- **C7** (counterexample to the claim as stated).  An input with no fence
marker and no closing brace but with an end-of-code marker line is still
truncated, so the output is not the trimmed original. -/
theorem claim_C7_counterexample :
    liInfix "```".toList "abc\n=== WIRING\ndef".toList = false ∧
    '}' ∉ "abc\n=== WIRING\ndef".toList ∧
    extractCode "abc\n=== WIRING\ndef".toList ≠ pstrip "abc\n=== WIRING\ndef".toList := by
  refine ⟨by decide, by decide, by decide⟩

/-- Witness for `claim_C7_extractor_identity` at a concrete marker-free
input. -/
theorem claim_C7_witness :
    liInfix "```".toList "int x = 1;\nint y = 2;".toList = false ∧
    '}' ∉ "int x = 1;\nint y = 2;".toList ∧
    (∀ l ∈ splitCh '\n' (pstrip "int x = 1;\nint y = 2;".toList), isEndMarker l = false) ∧
    extractCode "int x = 1;\nint y = 2;".toList = pstrip "int x = 1;\nint y = 2;".toList :=
  ⟨by decide, by decide, by decide,
   claim_C7_extractor_identity _ (by decide) (by decide) (by decide)⟩

/-- **C5** (confirmed).  When the post-fence text contains an end-of-code
marker line, the extractor's line loop keeps exactly the lines before the
first marker (all marker-free), and the final output is contained in the
re-join of those kept lines — no content from the marker line onward
survives. -/
theorem claim_C5_section_truncation (t : List Char)
    (hm : ∃ l ∈ splitCh '\n' (stripFences (pstrip t)), isEndMarker l = true) :
    (∀ l ∈ (splitCh '\n' (stripFences (pstrip t))).takeWhile (fun l => !isEndMarker l),
        isEndMarker l = false)
    ∧ ∃ u v,
        joinCh '\n'
            ((splitCh '\n' (stripFences (pstrip t))).takeWhile (fun l => !isEndMarker l))
          = u ++ extractCode t ++ v := by
  constructor
  · intro l hl
    have := List.mem_takeWhile_imp hl
    simpa using this
  · obtain ⟨u1, v1, h1⟩ :=
      pstrip_decomp (joinCh '\n'
        ((splitCh '\n' (stripFences (pstrip t))).takeWhile (fun l => !isEndMarker l)))
    obtain ⟨u2, v2, h2⟩ :=
      braceTruncate_decomp (truncateSections (stripFences (pstrip t)))
    refine ⟨u1 ++ u2, v2 ++ v1, ?_⟩
    have hts : truncateSections (stripFences (pstrip t))
        = pstrip (joinCh '\n'
            ((splitCh '\n' (stripFences (pstrip t))).takeWhile (fun l => !isEndMarker l))) := rfl
    have hEx : extractCode t
        = braceTruncate (truncateSections (stripFences (pstrip t))) := rfl
    rw [hEx]
    generalize braceTruncate (truncateSections (stripFences (pstrip t))) = B at h2 ⊢
    conv_lhs => rw [h1]
    rw [← hts, h2]
    simp

/-- Witness for `claim_C5_section_truncation` at a concrete input containing
a wiring-diagram section after the code. -/
theorem claim_C5_witness :
    (∃ l ∈ splitCh '\n' (stripFences (pstrip "foo();\n**WIRING DIAGRAM**\nLED to GPIO21".toList)),
        isEndMarker l = true) ∧
    ((∀ l ∈ (splitCh '\n'
          (stripFences (pstrip "foo();\n**WIRING DIAGRAM**\nLED to GPIO21".toList))).takeWhile
            (fun l => !isEndMarker l),
        isEndMarker l = false)
     ∧ ∃ u v,
        joinCh '\n'
            ((splitCh '\n'
              (stripFences (pstrip "foo();\n**WIRING DIAGRAM**\nLED to GPIO21".toList))).takeWhile
                (fun l => !isEndMarker l))
          = u ++ extractCode "foo();\n**WIRING DIAGRAM**\nLED to GPIO21".toList ++ v) :=
  ⟨by decide, claim_C5_section_truncation _ (by decide)⟩

/-! ### Whitespace/comment propagation from lines to the whole text -/

theorem joinCh_cons_exists (sep : Char) (l : List Char) (ls : List (List Char)) :
    ∃ rest, joinCh sep (l :: ls) = l ++ rest := by
  cases ls with
  | nil => exact ⟨[], by simp [joinCh]⟩
  | cons m ms => exact ⟨sep :: joinCh sep (m :: ms), rfl⟩

theorem splitCh_cons_of_ne {c sep : Char} (hc : ¬c = sep) {cs : List Char}
    {l : List Char} {ls : List (List Char)} (hs : splitCh sep cs = l :: ls) :
    splitCh sep (c :: cs) = (c :: l) :: ls := by
  simp [splitCh, if_neg hc, hs]

/-- If every line of `x` strips to empty or to a `//` comment, then `x`
itself strips to empty or to a `//` comment. -/
theorem pstrip_lines_comment {x : List Char}
    (h : ∀ l ∈ splitCh '\n' x, pstrip l = [] ∨ liStarts "//".toList (pstrip l) = true) :
    pstrip x = [] ∨ liStarts "//".toList (pstrip x) = true := by
  induction x with
  | nil => exact Or.inl rfl
  | cons c cs ih =>
    by_cases hc : c = '\n'
    · subst hc
      have hx : splitCh '\n' ('\n' :: cs) = [] :: splitCh '\n' cs := by simp [splitCh]
      rw [pstrip_cons_ws (by decide)]
      refine ih ?_
      intro l hl
      exact h l (by rw [hx]; exact List.mem_cons_of_mem _ hl)
    · cases hs : splitCh '\n' cs with
      | nil => exact absurd hs (splitCh_ne_nil _ _)
      | cons l' ls' =>
        have hx := splitCh_cons_of_ne hc hs
        cases hw : pyWS c with
        | true =>
          rw [pstrip_cons_ws hw]
          refine ih ?_
          intro l hl
          rw [hs] at hl
          rcases List.mem_cons.mp hl with rfl | hl'
          · have := h (c :: l) (by rw [hx]; exact List.mem_cons_self _ _)
            rwa [pstrip_cons_ws hw] at this
          · exact h l (by rw [hx]; exact List.mem_cons_of_mem _ hl')
        | false =>
          have hhead := h (c :: l') (by rw [hx]; exact List.mem_cons_self _ _)
          rw [pstrip_cons_not_ws hw] at hhead
          rcases hhead with hnil | hst
          · exact absurd hnil (by simp)
          · rcases (liStarts_iff _ _).mp hst with ⟨v, hv⟩
            have hv' : c :: rstrip l' = '/' :: ('/' :: v) := hv
            rw [List.cons.injEq] at hv'
            obtain ⟨hc', hrl⟩ := hv'
            have hl'head : l'.head? = some '/' := by
              rw [← rstrip_head (by rw [hrl]; simp), hrl]
              rfl
            obtain ⟨l'', rfl⟩ : ∃ l'', l' = '/' :: l'' := by
              cases l' with
              | nil => simp at hl'head
              | cons d ds => exact ⟨ds, by injection hl'head with h3; rw [h3]⟩
            have hcs_eq : cs = joinCh '\n' (('/' :: l'') :: ls') := by
              rw [← hs, joinCh_splitCh]
            obtain ⟨rest, hrest⟩ := joinCh_cons_exists '\n' ('/' :: l'') ls'
            have hcs2 : cs = '/' :: (l'' ++ rest) := by rw [hcs_eq, hrest]; rfl
            right
            rw [pstrip_cons_not_ws hw, hcs2, rstrip_cons_not_ws (by decide)]
            rw [hc']
            exact (liStarts_iff _ _).mpr ⟨rstrip (l'' ++ rest), rfl⟩

/-- If no line of `x` strips to a `//` comment, then `x` itself does not
strip to a `//` comment. -/
theorem pstrip_lines_no_comment {x : List Char}
    (h : ∀ l ∈ splitCh '\n' x, liStarts "//".toList (pstrip l) = false) :
    liStarts "//".toList (pstrip x) = false := by
  induction x with
  | nil => rfl
  | cons c cs ih =>
    by_cases hc : c = '\n'
    · subst hc
      have hx : splitCh '\n' ('\n' :: cs) = [] :: splitCh '\n' cs := by simp [splitCh]
      rw [pstrip_cons_ws (by decide)]
      refine ih ?_
      intro l hl
      exact h l (by rw [hx]; exact List.mem_cons_of_mem _ hl)
    · cases hs : splitCh '\n' cs with
      | nil => exact absurd hs (splitCh_ne_nil _ _)
      | cons l' ls' =>
        have hx := splitCh_cons_of_ne hc hs
        cases hw : pyWS c with
        | true =>
          rw [pstrip_cons_ws hw]
          refine ih ?_
          intro l hl
          rw [hs] at hl
          rcases List.mem_cons.mp hl with rfl | hl'
          · have := h (c :: l) (by rw [hx]; exact List.mem_cons_self _ _)
            rwa [pstrip_cons_ws hw] at this
          · exact h l (by rw [hx]; exact List.mem_cons_of_mem _ hl')
        | false =>
          cases hres : liStarts "//".toList (pstrip (c :: cs)) with
          | false => rfl
          | true =>
            exfalso
            rw [pstrip_cons_not_ws hw] at hres
            rcases (liStarts_iff _ _).mp hres with ⟨v, hv⟩
            have hv' : c :: rstrip cs = '/' :: ('/' :: v) := hv
            rw [List.cons.injEq] at hv'
            obtain ⟨hc', hrc⟩ := hv'
            have hcshead : cs.head? = some '/' := by
              rw [← rstrip_head (by rw [hrc]; simp), hrc]
              rfl
            have hcs_eq : cs = joinCh '\n' (l' :: ls') := by rw [← hs, joinCh_splitCh]
            cases l' with
            | nil =>
              rw [hcs_eq] at hcshead
              cases ls' with
              | nil => simp [joinCh] at hcshead
              | cons m ms =>
                have hj : joinCh '\n' ([] :: m :: ms) = '\n' :: joinCh '\n' (m :: ms) := rfl
                rw [hj] at hcshead
                simp at hcshead
            | cons d ds =>
              have hd : d = '/' := by
                rw [hcs_eq, joinCh_cons_cons] at hcshead
                simpa using hcshead
              have hfirst := h (c :: d :: ds) (by rw [hx]; exact List.mem_cons_self _ _)
              rw [pstrip_cons_not_ws hw, hd, hc'] at hfirst
              rw [rstrip_cons_not_ws (by decide)] at hfirst
              have hl2 : liStarts "//".toList ('/' :: '/' :: rstrip ds) = true :=
                (liStarts_iff _ _).mpr ⟨rstrip ds, rfl⟩
              rw [hl2] at hfirst
              exact absurd hfirst (by simp)

/-- **C6** (confirmed).  After fence stripping and section truncation, when a
closing brace exists: if every line after the last brace strips to empty or
to a `//` comment, the extractor returns the truncated text unchanged
(preserving the trailing comments); if the trailing content is non-empty and
contains no comment line, the extractor discards everything after the last
brace. -/
theorem claim_C6_brace_handling (t : List Char) (i : Nat)
    (hi : rfind '}' (truncateSections (stripFences (pstrip t))) = some i) :
    ((∀ l ∈ splitCh '\n' ((truncateSections (stripFences (pstrip t))).drop (i + 1)),
        pstrip l = [] ∨ liStarts "//".toList (pstrip l) = true) →
      extractCode t = truncateSections (stripFences (pstrip t)))
    ∧ ((pstrip ((truncateSections (stripFences (pstrip t))).drop (i + 1)) ≠ []
        ∧ (∀ l ∈ splitCh '\n' ((truncateSections (stripFences (pstrip t))).drop (i + 1)),
            liStarts "//".toList (pstrip l) = false)) →
      extractCode t = pstrip ((truncateSections (stripFences (pstrip t))).take (i + 1))) := by
  have hEx : extractCode t = braceTruncate (truncateSections (stripFences (pstrip t))) := rfl
  constructor
  · intro ha
    rw [hEx]
    simp only [braceTruncate, hi]
    rcases pstrip_lines_comment ha with hpe | hpe
    · rw [hpe]
      simp
    · rw [hpe]
      simp
  · rintro ⟨hne, hnc⟩
    rw [hEx]
    simp only [braceTruncate, hi]
    have h2 := pstrip_lines_no_comment hnc
    rw [h2]
    have h3 : (pstrip ((truncateSections (stripFences (pstrip t))).drop (i + 1))).isEmpty
        = false := by
      cases hp : pstrip ((truncateSections (stripFences (pstrip t))).drop (i + 1)) with
      | nil => exact absurd hp hne
      | cons a as => rfl
    rw [h3]
    simp

/-- Witness for `claim_C6_brace_handling`: branch (a) preserves a trailing
`//` comment; branch (b) truncates trailing prose at the brace. -/
theorem claim_C6_witness :
    (rfind '}' (truncateSections (stripFences (pstrip "int f() { g(); }\n// done".toList)))
        = some 15) ∧
    (∀ l ∈ splitCh '\n'
        ((truncateSections (stripFences (pstrip "int f() { g(); }\n// done".toList))).drop 16),
      pstrip l = [] ∨ liStarts "//".toList (pstrip l) = true) ∧
    extractCode "int f() { g(); }\n// done".toList
      = truncateSections (stripFences (pstrip "int f() { g(); }\n// done".toList)) ∧
    (rfind '}' (truncateSections (stripFences (pstrip "int f() { g(); }\nTrailing prose".toList)))
        = some 15) ∧
    (pstrip ((truncateSections
        (stripFences (pstrip "int f() { g(); }\nTrailing prose".toList))).drop 16) ≠ []
      ∧ ∀ l ∈ splitCh '\n'
          ((truncateSections
            (stripFences (pstrip "int f() { g(); }\nTrailing prose".toList))).drop 16),
        liStarts "//".toList (pstrip l) = false) ∧
    extractCode "int f() { g(); }\nTrailing prose".toList
      = pstrip ((truncateSections
          (stripFences (pstrip "int f() { g(); }\nTrailing prose".toList))).take 16) :=
  ⟨by decide, by decide,
   (claim_C6_brace_handling _ 15 (by decide)).1 (by decide),
   by decide, ⟨by decide, by decide⟩,
   (claim_C6_brace_handling _ 15 (by decide)).2 ⟨by decide, by decide⟩⟩

/-! ### Character-preservation lemmas for the extractor stages -/

/-- The fence-marker character, obtained from the marker string itself. -/
def btick : Char := "```".toList.headD ' '

theorem mem_rstrip {c : Char} {l : List Char} (h : c ∈ rstrip l) : c ∈ l := by
  have hd := rstrip_decomp l
  rw [hd]
  exact List.mem_append_left _ h

theorem mem_lstrip {c : Char} {l : List Char} (h : c ∈ lstrip l) : c ∈ l := by
  have hd := lstrip_decomp l
  rw [hd]
  exact List.mem_append_right _ h

theorem mem_splitCh {sep : Char} {x : List Char} :
    ∀ l ∈ splitCh sep x, ∀ c ∈ l, c ∈ x := by
  induction x with
  | nil =>
    intro l hl c hc
    simp [splitCh] at hl
    subst hl
    simp at hc
  | cons a cs ih =>
    intro l hl c hc
    by_cases ha : a = sep
    · subst ha
      rw [show splitCh a (a :: cs) = [] :: splitCh a cs by simp [splitCh]] at hl
      rcases List.mem_cons.mp hl with rfl | hl'
      · simp at hc
      · exact List.mem_cons_of_mem _ (ih l hl' c hc)
    · cases hs : splitCh sep cs with
      | nil => exact absurd hs (splitCh_ne_nil _ _)
      | cons l' ls' =>
        rw [splitCh_cons_of_ne ha hs] at hl
        rcases List.mem_cons.mp hl with rfl | hl'
        · rcases List.mem_cons.mp hc with rfl | hc'
          · exact List.mem_cons_self _ _
          · exact List.mem_cons_of_mem _ (ih l' (by rw [hs]; exact List.mem_cons_self _ _) c hc')
        · exact List.mem_cons_of_mem _ (ih l (by rw [hs]; exact List.mem_cons_of_mem _ hl') c hc)

theorem mem_joinCh {sep : Char} {ls : List (List Char)} {c : Char}
    (h : c ∈ joinCh sep ls) : c = sep ∨ ∃ l ∈ ls, c ∈ l := by
  induction ls with
  | nil => simp [joinCh] at h
  | cons l ms ih =>
    cases ms with
    | nil =>
      right
      exact ⟨l, List.mem_cons_self _ _, h⟩
    | cons m ms' =>
      rw [show joinCh sep (l :: m :: ms') = l ++ sep :: joinCh sep (m :: ms') from rfl] at h
      rcases List.mem_append.mp h with h1 | h2
      · exact Or.inr ⟨l, List.mem_cons_self _ _, h1⟩
      · rcases List.mem_cons.mp h2 with rfl | h3
        · exact Or.inl rfl
        · rcases ih h3 with h4 | ⟨l', hl', hc⟩
          · exact Or.inl h4
          · exact Or.inr ⟨l', List.mem_cons_of_mem _ hl', hc⟩

theorem mem_truncateSections {c : Char} {x : List Char}
    (h : c ∈ truncateSections x) : c = '\n' ∨ c ∈ x := by
  have h1 : c ∈ joinCh '\n' ((splitCh '\n' x).takeWhile (fun l => !isEndMarker l)) :=
    mem_pstrip h
  rcases mem_joinCh h1 with h2 | ⟨l, hl, hc⟩
  · exact Or.inl h2
  · have hl' : l ∈ splitCh '\n' x := (List.takeWhile_sublist _).subset hl
    exact Or.inr (mem_splitCh l hl' c hc)

theorem mem_braceTruncate {c : Char} {x : List Char}
    (h : c ∈ braceTruncate x) : c ∈ x := by
  cases hr : rfind '}' x with
  | none => rwa [braceTruncate_of_none hr] at h
  | some i =>
    have hbt : braceTruncate x
        = if (!(pstrip (x.drop (i + 1))).isEmpty
            && !liStarts "//".toList (pstrip (x.drop (i + 1)))) = true
          then pstrip (x.take (i + 1)) else x := by
      simp only [braceTruncate, hr]
    rw [hbt] at h
    by_cases hcond : (!(pstrip (x.drop (i + 1))).isEmpty
        && !liStarts "//".toList (pstrip (x.drop (i + 1)))) = true
    · rw [if_pos hcond] at h
      exact List.take_subset _ _ (mem_pstrip h)
    · rw [if_neg hcond] at h
      exact h

theorem noBT_post {x : List Char} (h : btick ∉ x) :
    btick ∉ braceTruncate (truncateSections x) := by
  intro hmem
  rcases mem_truncateSections (mem_braceTruncate hmem) with h1 | h1
  · exact absurd h1 (by decide)
  · exact h h1

theorem liInfix_fence_false {s : List Char} (h : btick ∉ s) :
    liInfix "```".toList s = false := by
  cases hx : liInfix "```".toList s with
  | false => rfl
  | true =>
    rcases (liInfix_iff _ _).mp hx with ⟨u, v, rfl⟩
    exact absurd (List.mem_append_left _ (List.mem_append_right _ (by decide))) h

theorem stripFences_no_bt {s : List Char} (h : btick ∉ s) : stripFences s = s :=
  stripFences_id (liInfix_fence_false h)

theorem lstrip_append_of_nil {x : List Char} (h : lstrip x = []) (y : List Char) :
    lstrip (x ++ y) = lstrip y := by
  rw [lstrip_append, if_pos h]

theorem lstrip_append_of_ne {x : List Char} (h : lstrip x ≠ []) (y : List Char) :
    lstrip (x ++ y) = lstrip x ++ y := by
  rw [lstrip_append, if_neg h]

theorem rstrip_nil_iff (y : List Char) : rstrip y = [] ↔ lstrip y.reverse = [] := by
  unfold rstrip
  simp

theorem rstrip_append_of_ne {y : List Char} (h : rstrip y ≠ []) (x : List Char) :
    rstrip (x ++ y) = x ++ rstrip y := by
  have h' : lstrip y.reverse ≠ [] := fun hn => h ((rstrip_nil_iff y).mpr hn)
  show (lstrip (x ++ y).reverse).reverse = _
  rw [List.reverse_append, lstrip_append_of_ne h']
  rw [List.reverse_append, List.reverse_reverse]
  rfl

theorem rstrip_append_of_nil {y : List Char} (h : rstrip y = []) (x : List Char) :
    rstrip (x ++ y) = rstrip x := by
  have h' : lstrip y.reverse = [] := by
    have := h
    unfold rstrip at this
    simpa using this
  show (lstrip (x ++ y).reverse).reverse = _
  rw [List.reverse_append, lstrip_append_of_nil h']
  rfl

theorem head?_append_left {α : Type} {x : List α} (h : x ≠ []) (y : List α) :
    (x ++ y).head? = x.head? := by
  cases x with
  | nil => exact absurd rfl h
  | cons a as => rfl

theorem getLast?_append_right {α : Type} (x : List α) {y : List α} (h : y ≠ []) :
    (x ++ y).getLast? = y.getLast? := by
  rw [← List.head?_reverse, ← List.head?_reverse, List.reverse_append]
  exact head?_append_left (by simpa using h) _

theorem liStarts_false_of_head_ne {pat s : List Char} {c : Char}
    (hp : pat.head? = some c) (hs : ∀ d, s.head? = some d → d ≠ c) :
    liStarts pat s = false := by
  cases hres : liStarts pat s with
  | false => rfl
  | true =>
    exfalso
    rcases (liStarts_iff _ _).mp hres with ⟨v, rfl⟩
    cases pat with
    | nil => simp at hp
    | cons p ps =>
      have hpc : p = c := by simpa using hp
      exact hs p rfl hpc

theorem stripFenceC_no_bt {s : List Char} (h : btick ∉ s) : stripFenceC s = s := by
  rw [stripFenceC, if_neg]
  intro hst
  rcases (liStarts_iff _ _).mp hst with ⟨v, hv⟩
  exact h (by rw [hv]; exact List.mem_append_left _ (by decide))

theorem stripFencePlain_no_bt {s : List Char} (h : btick ∉ s) : stripFencePlain s = s := by
  rw [stripFencePlain, if_neg]
  intro hst
  rcases (liStarts_iff _ _).mp hst with ⟨v, hv⟩
  exact h (by rw [hv]; exact List.mem_append_left _ (by decide))

theorem stripFenceEnd_no_bt {s : List Char} (h : btick ∉ s) : stripFenceEnd s = s := by
  rw [stripFenceEnd, if_neg]
  intro hend
  rcases (liEnds_iff _ _).mp hend with ⟨core, hcv⟩
  exact h (by rw [hcv]; exact List.mem_append_right _ (by decide))

/-- Shape of `pstrip (body ++ "\n```")`. -/
theorem pstrip_body_closer (body : List Char) :
    pstrip (body ++ "\n```".toList)
      = if lstrip body = [] then "```".toList else lstrip body ++ "\n```".toList := by
  by_cases hlb : lstrip body = []
  · rw [if_pos hlb]
    show rstrip (lstrip (body ++ "\n```".toList)) = _
    rw [lstrip_append_of_nil hlb]
    decide
  · rw [if_neg hlb]
    show rstrip (lstrip (body ++ "\n```".toList)) = _
    rw [lstrip_append_of_ne hlb]
    rw [rstrip_append_of_ne (by decide)]
    rw [show rstrip ("\n```".toList) = "\n```".toList by decide]

theorem head_lstrip_not_btick {body : List Char} (h : btick ∉ body) :
    ∀ d, (lstrip body).head? = some d → d ≠ btick := by
  intro d hd hdb
  subst hdb
  exact h (mem_lstrip (List.mem_of_mem_head? hd))

/-- After the closer-only shape's `strip()`, the trailing-fence cleanup
leaves no fence characters. -/
theorem noBT_end_closer {body : List Char} (h : btick ∉ body) :
    btick ∉ stripFenceEnd (pstrip (body ++ "\n```".toList)) := by
  rw [pstrip_body_closer]
  by_cases hlb : lstrip body = []
  · rw [if_pos hlb]
    decide
  · rw [if_neg hlb]
    have hb : btick ∉ lstrip body := fun hm => h (mem_lstrip hm)
    have hEnd : liEnds "```".toList (lstrip body ++ "\n```".toList) = true := by
      refine (liEnds_iff _ _).mpr ⟨lstrip body ++ ['\n'], ?_⟩
      simp
    rw [stripFenceEnd, if_pos hEnd]
    have hlen : (lstrip body ++ "\n```".toList).length - 3 = (lstrip body ++ ['\n']).length := by
      simp
    have htake : (lstrip body ++ "\n```".toList).take ((lstrip body ++ "\n```".toList).length - 3)
        = lstrip body ++ ['\n'] := by
      rw [hlen]
      rw [show (lstrip body ++ "\n```".toList) = (lstrip body ++ ['\n']) ++ "```".toList by simp]
      exact List.take_left _ _
    rw [htake]
    intro hm
    have hm2 : btick ∈ lstrip body ++ ['\n'] := mem_pstrip hm
    rcases List.mem_append.mp hm2 with h1 | h1
    · exact hb h1
    · simp at h1
      exact absurd h1 (by decide)

/-- Same, preceded by the plain-opener cleanup (which does not fire). -/
theorem noBT_plain_end_closer {body : List Char} (h : btick ∉ body) :
    btick ∉ stripFenceEnd (stripFencePlain (pstrip (body ++ "\n```".toList))) := by
  by_cases hlb : lstrip body = []
  · rw [pstrip_body_closer, if_pos hlb]
    decide
  · have hps : pstrip (body ++ "\n```".toList) = lstrip body ++ "\n```".toList := by
      rw [pstrip_body_closer, if_neg hlb]
    have hplain : stripFencePlain (pstrip (body ++ "\n```".toList))
        = pstrip (body ++ "\n```".toList) := by
      rw [stripFencePlain, if_neg]
      intro hst
      rw [hps] at hst
      rw [liStarts_false_of_head_ne (by decide : ("```".toList : List Char).head? = some btick)
        (by
          intro d hd
          rw [head?_append_left hlb] at hd
          exact head_lstrip_not_btick h d hd)] at hst
      exact absurd hst (by simp)
    rw [hplain]
    exact noBT_end_closer h

/-- Closer-only shape: the whole fence cleanup leaves no fence characters. -/
theorem noBT_closer_shape {body : List Char} (h : btick ∉ body) :
    btick ∉ stripFences (pstrip (body ++ "\n```".toList)) := by
  by_cases hlb : lstrip body = []
  · rw [show stripFences (pstrip (body ++ "\n```".toList))
        = stripFences ("```".toList) by rw [pstrip_body_closer, if_pos hlb]]
    decide
  · have hps : pstrip (body ++ "\n```".toList) = lstrip body ++ "\n```".toList := by
      rw [pstrip_body_closer, if_neg hlb]
    have hfc : stripFenceC (pstrip (body ++ "\n```".toList))
        = pstrip (body ++ "\n```".toList) := by
      rw [stripFenceC, if_neg]
      intro hst
      rw [hps] at hst
      rw [liStarts_false_of_head_ne (by decide : ("```c".toList : List Char).head? = some btick)
        (by
          intro d hd
          rw [head?_append_left hlb] at hd
          exact head_lstrip_not_btick h d hd)] at hst
      exact absurd hst (by simp)
    rw [stripFences, hfc]
    exact noBT_plain_end_closer h

/-- Tagged-opener-only shape. -/
theorem noBT_copen_shape {body : List Char} (h : btick ∉ body) :
    btick ∉ stripFences (pstrip ("```c\n".toList ++ body)) := by
  have hl1 : lstrip ("```c\n".toList ++ body) = "```c\n".toList ++ body := by
    rw [lstrip_append_of_ne (by decide)]
    rw [show lstrip ("```c\n".toList) = "```c\n".toList by decide]
  by_cases hrb : rstrip body = []
  · have hps : pstrip ("```c\n".toList ++ body) = "```c".toList := by
      show rstrip (lstrip _) = _
      rw [hl1, rstrip_append_of_nil hrb]
      decide
    rw [hps]
    decide
  · have hps : pstrip ("```c\n".toList ++ body) = "```c\n".toList ++ rstrip body := by
      show rstrip (lstrip _) = _
      rw [hl1, rstrip_append_of_ne hrb]


    have hrfree : btick ∉ rstrip body := fun hm => h (mem_rstrip hm)
    have hfc : stripFenceC ("```c\n".toList ++ rstrip body) = pstrip ('\n' :: rstrip body) := by
      have hcond : liStarts "```c".toList ("```c\n".toList ++ rstrip body) = true :=
        (liStarts_iff _ _).mpr ⟨'\n' :: rstrip body, rfl⟩
      rw [stripFenceC, if_pos hcond]
      rfl
    have hfree2 : btick ∉ pstrip ('\n' :: rstrip body) := by
      intro hm
      rcases List.mem_cons.mp (mem_pstrip hm) with h1 | h1
      · exact absurd h1 (by decide)
      · exact hrfree h1
    rw [hps, stripFences, hfc, stripFencePlain_no_bt hfree2, stripFenceEnd_no_bt hfree2]
    exact hfree2

/-- Bare-opener-only shape. -/
theorem noBT_plainopen_shape {body : List Char} (h : btick ∉ body) :
    btick ∉ stripFences (pstrip ("```\n".toList ++ body)) := by
  have hl1 : lstrip ("```\n".toList ++ body) = "```\n".toList ++ body := by
    rw [lstrip_append_of_ne (by decide)]
    rw [show lstrip ("```\n".toList) = "```\n".toList by decide]
  by_cases hrb : rstrip body = []
  · have hps : pstrip ("```\n".toList ++ body) = "```".toList := by
      show rstrip (lstrip _) = _
      rw [hl1, rstrip_append_of_nil hrb]
      decide
    rw [hps]
    decide
  · have hps : pstrip ("```\n".toList ++ body) = "```\n".toList ++ rstrip body := by
      show rstrip (lstrip _) = _
      rw [hl1, rstrip_append_of_ne hrb]
    have hrfree : btick ∉ rstrip body := fun hm => h (mem_rstrip hm)
    have hfcF : liStarts "```c".toList ("```\n".toList ++ rstrip body) = false := by
      cases hres : liStarts "```c".toList ("```\n".toList ++ rstrip body) with
      | false => rfl
      | true =>
        exfalso
        rcases (liStarts_iff _ _).mp hres with ⟨v, hv⟩
        have hv2 : btick :: btick :: btick :: '\n' :: rstrip body
            = btick :: btick :: btick :: 'c' :: v := hv
        rw [List.cons.injEq, List.cons.injEq, List.cons.injEq, List.cons.injEq] at hv2
        exact absurd hv2.2.2.2.1 (by decide)
    have hfc : stripFenceC ("```\n".toList ++ rstrip body)
        = "```\n".toList ++ rstrip body := by
      rw [stripFenceC, if_neg (by rw [hfcF]; simp)]
    have hpl : stripFencePlain ("```\n".toList ++ rstrip body)
        = pstrip ('\n' :: rstrip body) := by
      have hcond : liStarts "```".toList ("```\n".toList ++ rstrip body) = true :=
        (liStarts_iff _ _).mpr ⟨'\n' :: rstrip body, rfl⟩
      rw [stripFencePlain, if_pos hcond]
      rfl
    have hfree2 : btick ∉ pstrip ('\n' :: rstrip body) := by
      intro hm
      rcases List.mem_cons.mp (mem_pstrip hm) with h1 | h1
      · exact absurd h1 (by decide)
      · exact hrfree h1
    rw [hps, stripFences, hfc, hpl, stripFenceEnd_no_bt hfree2]
    exact hfree2

/-- Tagged opener and closer. -/
theorem noBT_copen_closer_shape {body : List Char} (h : btick ∉ body) :
    btick ∉ stripFences (pstrip ("```c\n".toList ++ body ++ "\n```".toList)) := by
  have hlAB : lstrip ("```c\n".toList ++ body) = "```c\n".toList ++ body := by
    rw [lstrip_append_of_ne (by decide)]
    rw [show lstrip ("```c\n".toList) = "```c\n".toList by decide]
  have hps : pstrip ("```c\n".toList ++ body ++ "\n```".toList)
      = "```c\n".toList ++ body ++ "\n```".toList := by
    show rstrip (lstrip _) = _
    rw [lstrip_append_of_ne (by rw [hlAB]; simp), hlAB]
    rw [rstrip_append_of_ne (by decide)]
    rw [show rstrip ("\n```".toList) = "\n```".toList by decide]
  have hfc : stripFenceC ("```c\n".toList ++ body ++ "\n```".toList)
      = pstrip (body ++ "\n```".toList) := by
    have hcond : liStarts "```c".toList ("```c\n".toList ++ body ++ "\n```".toList) = true :=
      (liStarts_iff _ _).mpr ⟨'\n' :: (body ++ "\n```".toList), rfl⟩
    rw [stripFenceC, if_pos hcond]
    rw [show List.drop 4 ("```c\n".toList ++ body ++ "\n```".toList)
        = '\n' :: (body ++ "\n```".toList) from rfl]
    exact pstrip_cons_ws (by decide) _
  rw [hps, stripFences, hfc]
  exact noBT_plain_end_closer h

/-- Bare opener and closer. -/
theorem noBT_plainopen_closer_shape {body : List Char} (h : btick ∉ body) :
    btick ∉ stripFences (pstrip ("```\n".toList ++ body ++ "\n```".toList)) := by
  have hlAB : lstrip ("```\n".toList ++ body) = "```\n".toList ++ body := by
    rw [lstrip_append_of_ne (by decide)]
    rw [show lstrip ("```\n".toList) = "```\n".toList by decide]
  have hps : pstrip ("```\n".toList ++ body ++ "\n```".toList)
      = "```\n".toList ++ body ++ "\n```".toList := by
    show rstrip (lstrip _) = _
    rw [lstrip_append_of_ne (by rw [hlAB]; simp), hlAB]
    rw [rstrip_append_of_ne (by decide)]
    rw [show rstrip ("\n```".toList) = "\n```".toList by decide]
  have hfcF : liStarts "```c".toList ("```\n".toList ++ body ++ "\n```".toList) = false := by
    cases hres : liStarts "```c".toList ("```\n".toList ++ body ++ "\n```".toList) with
    | false => rfl
    | true =>
      exfalso
      rcases (liStarts_iff _ _).mp hres with ⟨v, hv⟩
      have hv2 : btick :: btick :: btick :: '\n' :: (body ++ "\n```".toList)
          = btick :: btick :: btick :: 'c' :: v := hv
      rw [List.cons.injEq, List.cons.injEq, List.cons.injEq, List.cons.injEq] at hv2
      exact absurd hv2.2.2.2.1 (by decide)
  have hfc : stripFenceC ("```\n".toList ++ body ++ "\n```".toList)
      = "```\n".toList ++ body ++ "\n```".toList := by
    rw [stripFenceC, if_neg (by rw [hfcF]; simp)]
  have hpl : stripFencePlain ("```\n".toList ++ body ++ "\n```".toList)
      = pstrip (body ++ "\n```".toList) := by
    have hcond : liStarts "```".toList ("```\n".toList ++ body ++ "\n```".toList) = true :=
      (liStarts_iff _ _).mpr ⟨'\n' :: (body ++ "\n```".toList), rfl⟩
    rw [stripFencePlain, if_pos hcond]
    rw [show List.drop 3 ("```\n".toList ++ body ++ "\n```".toList)
        = '\n' :: (body ++ "\n```".toList) from rfl]
    exact pstrip_cons_ws (by decide) _
  rw [hps, stripFences, hfc, hpl]
  exact noBT_end_closer h

set_option maxHeartbeats 2000000 in
/-- **C4** (confirmed).  For a backtick-free body wrapped in any recognized
fence opener and/or closer, the extractor's output contains no fence-marker
character: the five `agent` shapes (tagged/bare opener, closer only, and
both), and the three extra `agent_arduino` opener tags (whenever that
extractor returns at all). -/
theorem claim_C4_fence_markers_removed (body : List Char) (h : btick ∉ body) :
    btick ∉ extractCode ("```c\n".toList ++ body)
    ∧ btick ∉ extractCode ("```\n".toList ++ body)
    ∧ btick ∉ extractCode (body ++ "\n```".toList)
    ∧ btick ∉ extractCode ("```c\n".toList ++ body ++ "\n```".toList)
    ∧ btick ∉ extractCode ("```\n".toList ++ body ++ "\n```".toList)
    ∧ (∀ out, extractCodeArduino ("```cpp\n".toList ++ body ++ "\n```".toList) = some out →
        btick ∉ out)
    ∧ (∀ out, extractCodeArduino ("```c++\n".toList ++ body ++ "\n```".toList) = some out →
        btick ∉ out)
    ∧ (∀ out, extractCodeArduino ("```arduino\n".toList ++ body ++ "\n```".toList) = some out →
        btick ∉ out) := by
  have hcore : btick ∉ braceTruncate (truncateSections
      (stripFences (pstrip (body ++ "\n```".toList)))) := noBT_post (noBT_closer_shape h)
  refine ⟨noBT_post (noBT_copen_shape h), noBT_post (noBT_plainopen_shape h),
    noBT_post (noBT_closer_shape h), noBT_post (noBT_copen_closer_shape h),
    noBT_post (noBT_plainopen_closer_shape h), ?_, ?_, ?_⟩
  · intro out hout
    have hps : pstrip ("```cpp\n".toList ++ body ++ "\n```".toList)
        = "```cpp\n".toList ++ body ++ "\n```".toList := by
      have hlAB : lstrip ("```cpp\n".toList ++ body) = "```cpp\n".toList ++ body := by
        rw [lstrip_append_of_ne (by decide)]
        rw [show lstrip ("```cpp\n".toList) = "```cpp\n".toList by decide]
      show rstrip (lstrip _) = _
      rw [lstrip_append_of_ne (by rw [hlAB]; simp), hlAB]
      rw [rstrip_append_of_ne (by decide)]
      rw [show rstrip ("\n```".toList) = "\n```".toList by decide]
    have hcond : (liStarts "```cpp".toList ("```cpp\n".toList ++ body ++ "\n```".toList)
        || liStarts "```c++".toList ("```cpp\n".toList ++ body ++ "\n```".toList)
        || liStarts "```arduino".toList ("```cpp\n".toList ++ body ++ "\n```".toList)) = true := by
      have h1 : liStarts "```cpp".toList ("```cpp\n".toList ++ body ++ "\n```".toList) = true :=
        (liStarts_iff _ _).mpr ⟨'\n' :: (body ++ "\n```".toList), rfl⟩
      rw [h1]
      simp
    have hAF : afterFirstNL ("```cpp\n".toList ++ body ++ "\n```".toList)
        = some (body ++ "\n```".toList) := rfl
    have hsfa : stripFencesArduino ("```cpp\n".toList ++ body ++ "\n```".toList)
        = some (stripFences (pstrip (body ++ "\n```".toList))) := by
      rw [stripFencesArduino, if_pos hcond, hAF]
    rw [extractCodeArduino, hps, hsfa] at hout
    simp only [Option.map_some'] at hout
    injection hout with hout'
    rw [← hout']
    exact hcore
  · intro out hout
    have hps : pstrip ("```c++\n".toList ++ body ++ "\n```".toList)
        = "```c++\n".toList ++ body ++ "\n```".toList := by
      have hlAB : lstrip ("```c++\n".toList ++ body) = "```c++\n".toList ++ body := by
        rw [lstrip_append_of_ne (by decide)]
        rw [show lstrip ("```c++\n".toList) = "```c++\n".toList by decide]
      show rstrip (lstrip _) = _
      rw [lstrip_append_of_ne (by rw [hlAB]; simp), hlAB]
      rw [rstrip_append_of_ne (by decide)]
      rw [show rstrip ("\n```".toList) = "\n```".toList by decide]
    have hcond : (liStarts "```cpp".toList ("```c++\n".toList ++ body ++ "\n```".toList)
        || liStarts "```c++".toList ("```c++\n".toList ++ body ++ "\n```".toList)
        || liStarts "```arduino".toList ("```c++\n".toList ++ body ++ "\n```".toList)) = true := by
      have h1 : liStarts "```c++".toList ("```c++\n".toList ++ body ++ "\n```".toList) = true :=
        (liStarts_iff _ _).mpr ⟨'\n' :: (body ++ "\n```".toList), rfl⟩
      rw [h1]
      simp
    have hAF : afterFirstNL ("```c++\n".toList ++ body ++ "\n```".toList)
        = some (body ++ "\n```".toList) := rfl
    have hsfa : stripFencesArduino ("```c++\n".toList ++ body ++ "\n```".toList)
        = some (stripFences (pstrip (body ++ "\n```".toList))) := by
      rw [stripFencesArduino, if_pos hcond, hAF]
    rw [extractCodeArduino, hps, hsfa] at hout
    simp only [Option.map_some'] at hout
    injection hout with hout'
    rw [← hout']
    exact hcore
  · intro out hout
    have hps : pstrip ("```arduino\n".toList ++ body ++ "\n```".toList)
        = "```arduino\n".toList ++ body ++ "\n```".toList := by
      have hlAB : lstrip ("```arduino\n".toList ++ body) = "```arduino\n".toList ++ body := by
        rw [lstrip_append_of_ne (by decide)]
        rw [show lstrip ("```arduino\n".toList) = "```arduino\n".toList by decide]
      show rstrip (lstrip _) = _
      rw [lstrip_append_of_ne (by rw [hlAB]; simp), hlAB]
      rw [rstrip_append_of_ne (by decide)]
      rw [show rstrip ("\n```".toList) = "\n```".toList by decide]
    have hcond : (liStarts "```cpp".toList ("```arduino\n".toList ++ body ++ "\n```".toList)
        || liStarts "```c++".toList ("```arduino\n".toList ++ body ++ "\n```".toList)
        || liStarts "```arduino".toList
            ("```arduino\n".toList ++ body ++ "\n```".toList)) = true := by
      have h1 : liStarts "```arduino".toList
          ("```arduino\n".toList ++ body ++ "\n```".toList) = true :=
        (liStarts_iff _ _).mpr ⟨'\n' :: (body ++ "\n```".toList), rfl⟩
      rw [h1]
      simp
    have hAF : afterFirstNL ("```arduino\n".toList ++ body ++ "\n```".toList)
        = some (body ++ "\n```".toList) := rfl
    have hsfa : stripFencesArduino ("```arduino\n".toList ++ body ++ "\n```".toList)
        = some (stripFences (pstrip (body ++ "\n```".toList))) := by
      rw [stripFencesArduino, if_pos hcond, hAF]
    rw [extractCodeArduino, hps, hsfa] at hout
    simp only [Option.map_some'] at hout
    injection hout with hout'
    rw [← hout']
    exact hcore

set_option maxHeartbeats 2000000 in
/-- Witness for `claim_C4_fence_markers_removed` at a concrete backtick-free
body. -/
theorem claim_C4_witness :
    btick ∉ "int main() { return 0; }".toList ∧
    (btick ∉ extractCode ("```c\n".toList ++ "int main() { return 0; }".toList)
    ∧ btick ∉ extractCode ("```\n".toList ++ "int main() { return 0; }".toList)
    ∧ btick ∉ extractCode ("int main() { return 0; }".toList ++ "\n```".toList)
    ∧ btick ∉ extractCode
        ("```c\n".toList ++ "int main() { return 0; }".toList ++ "\n```".toList)
    ∧ btick ∉ extractCode
        ("```\n".toList ++ "int main() { return 0; }".toList ++ "\n```".toList)
    ∧ (∀ out, extractCodeArduino
        ("```cpp\n".toList ++ "int main() { return 0; }".toList ++ "\n```".toList)
          = some out → btick ∉ out)
    ∧ (∀ out, extractCodeArduino
        ("```c++\n".toList ++ "int main() { return 0; }".toList ++ "\n```".toList)
          = some out → btick ∉ out)
    ∧ (∀ out, extractCodeArduino
        ("```arduino\n".toList ++ "int main() { return 0; }".toList ++ "\n```".toList)
          = some out → btick ∉ out)) :=
  ⟨by decide, claim_C4_fence_markers_removed _ (by decide)⟩

/-! ## Wiring-Text Parser: `agent/wiring_diagrams.py`, `parse_wiring_diagram_text`
(platform data from `agent/skillsets.py`).

Note: in the source file the resistor component name is literally the
mojibake string `100Î© Resistor` (U+00CE U+00A9) and the box-drawing
column separator is the three-character string U+00E2 U+201D U+201A; both
are reproduced here with escape sequences. -/

/-- A `components` entry (`name`/`type`/`description`). -/
structure WComponent where
  name : List Char
  ctype : List Char
  descr : List Char
deriving DecidableEq

/-- A `connections` record (`from`/`to`/`pin`/`type`/`description`). -/
structure WConnection where
  src : List Char
  dst : List Char
  pin : List Char
  ctype : List Char
  descr : List Char
deriving DecidableEq

/-- A `pin_mappings` value (`function`/`type`/`description`). -/
structure PinInfo where
  func : List Char
  ptype : List Char
  descr : List Char
deriving DecidableEq

/-- The slice of `PlatformSkillset` that `parse_wiring_diagram_text` reads. -/
structure Skillset where
  platform_name : List Char
  description : List Char
  gpio_mapping : List (List Char × List Char)
deriving DecidableEq

/-- `ESP32_S3_BOX_3` from `skillsets.py` (its uncommented `gpio_mapping`
entries, in source order). -/
def ESP32_S3_BOX_3 : Skillset where
  platform_name := "ESP32-S3-BOX-3".toList
  description := "Compact AI development board with integrated display and audio".toList
  gpio_mapping :=
    [("RST Button".toList, "RESET".toList),
     ("Display CS".toList, "GPIO 5".toList),
     ("Display DC".toList, "GPIO 4".toList),
     ("Display RST".toList, "GPIO 9".toList),
     ("Display CLK (SPI)".toList, "GPIO 7".toList),
     ("Display MOSI (SPI)".toList, "GPIO 6".toList),
     ("Display MISO (SPI)".toList, "GPIO 8".toList),
     ("IMU SDA".toList, "GPIO 8".toList),
     ("IMU SCL".toList, "GPIO 9".toList),
     ("Microphone CLK".toList, "GPIO 32".toList),
     ("Microphone WS".toList, "GPIO 33".toList),
     ("Microphone SD".toList, "GPIO 34".toList),
     ("Speaker LRCK".toList, "GPIO 33".toList),
     ("Speaker BCLK".toList, "GPIO 32".toList),
     ("Speaker DOUT".toList, "GPIO 35".toList),
     ("RGB LED Red".toList, "GPIO 21".toList),
     ("RGB LED Green".toList, "GPIO 47".toList),
     ("RGB LED Blue".toList, "GPIO 48".toList),
     ("White LED".toList, "GPIO 46".toList),
     ("Bread GPIO 9".toList, "GPIO 9".toList),
     ("Bread GPIO 10".toList, "GPIO 10".toList),
     ("Bread GPIO 11".toList, "GPIO 11".toList),
     ("Bread GPIO 12".toList, "GPIO 12".toList),
     ("Bread GPIO 13".toList, "GPIO 13".toList),
     ("Bread GPIO 14".toList, "GPIO 14".toList),
     ("Bread GPIO 19".toList, "GPIO 19".toList),
     ("Bread GPIO 20".toList, "GPIO 20".toList),
     ("Bread GPIO 21".toList, "GPIO 21".toList),
     ("Bread GPIO 38".toList, "GPIO 38".toList),
     ("Bread GPIO 39".toList, "GPIO 39".toList),
     ("Bread GPIO 40".toList, "GPIO 40".toList),
     ("Bread GPIO 41".toList, "GPIO 41".toList),
     ("Bread GPIO 42".toList, "GPIO 42".toList),
     ("Bread GPIO 43".toList, "GPIO 43".toList),
     ("Bread GPIO 44".toList, "GPIO 44".toList),
     ("Bread GND".toList, "GND".toList),
     ("Bread 3.3V".toList, "3.3V".toList),
     ("ADC1_CHANNEL_8_GPIO_NUM".toList, "9".toList),
     ("ADC1_CHANNEL_9_GPIO_NUM".toList, "10".toList),
     ("ADC2_CHANNEL_0_GPIO_NUM".toList, "11".toList),
     ("ADC2_CHANNEL_1_GPIO_NUM".toList, "12".toList),
     ("ADC2_CHANNEL_2_GPIO_NUM".toList, "13".toList),
     ("ADC2_CHANNEL_3_GPIO_NUM".toList, "14".toList),
     ("ADC2_CHANNEL_8_GPIO_NUM".toList, "19".toList),
     ("ADC2_CHANNEL_9_GPIO_NUM".toList, "20".toList)]

/-- `get_skillset`: lowercase, strip, registry lookup (the three keys of
`SKILLSETS`); `none` models the `ValueError` (caught by the seeding
`except`). -/
def getSkillset (platformName : List Char) : Option Skillset :=
  let n := pstrip (platformName.map Char.toLower)
  if n = "esp32-s3-box-3".toList || n = "esp32-s3-box3".toList || n = "box-3".toList then
    some ESP32_S3_BOX_3
  else none

/-- Python string `<` (lexicographic by code point). -/
def strLt : List Char → List Char → Bool
  | [], [] => false
  | [], _ :: _ => true
  | _ :: _, [] => false
  | x :: xs, y :: ys =>
    if x.val < y.val then true
    else if y.val < x.val then false
    else strLt xs ys

/-- Python tuple `<=` on `(key, value)` pairs as used by `sorted(items())`. -/
def pairLe (p q : List Char × List Char) : Bool :=
  strLt p.1 q.1 || (p.1 == q.1 && (strLt p.2 q.2 || p.2 == q.2))

def insertSorted (x : List Char × List Char) :
    List (List Char × List Char) → List (List Char × List Char)
  | [] => [x]
  | y :: ys => if pairLe x y then x :: y :: ys else y :: insertSorted x ys

/-- `sorted(skillset.gpio_mapping.items())` (keys are unique, so any stable
comparison sort agrees with insertion sort). -/
def sortPairs (l : List (List Char × List Char)) : List (List Char × List Char) :=
  l.foldr insertSorted []

/-- Python `dict` assignment `d[k] = v` on an insertion-ordered association
list: overwrite in place if present, else append. -/
def dictSet (d : List (List Char × PinInfo)) (k : List Char) (v : PinInfo) :
    List (List Char × PinInfo) :=
  if d.any (fun p => p.1 == k) then d.map (fun p => if p.1 == k then (k, v) else p)
  else d ++ [(k, v)]

/-- Python `d[k]` / `k in d` readback. -/
def pinLookup (d : List (List Char × PinInfo)) (k : List Char) : Option PinInfo :=
  (d.find? (fun p => p.1 == k)).map (fun p => p.2)

/-- The platform-seeding pass (lines 66–108): board component, then one
component per sorted gpio-mapping entry (skipping names already added), with
pin/power `pin_mappings` entries. -/
def seedPlatform (platform : Option (List Char)) :
    List WComponent × List (List Char × PinInfo) :=
  match platform with
  | none => ([], [])
  | some p =>
    match getSkillset p with
    | none => ([], [])
    | some sk =>
      let boardComp : WComponent :=
        { name := sk.platform_name, ctype := "hardware".toList, descr := sk.description }
      let step := fun (st : List WComponent × List (List Char × PinInfo) × List (List Char))
          (entry : List Char × List Char) =>
        let comps := st.1
        let pins := st.2.1
        let added := st.2.2
        let usage := entry.1
        let gpio := entry.2
        if added.contains usage then (comps, pins, added)
        else
          let compType :=
            if liStarts "GPIO".toList gpio || liInfix "Bread".toList usage then "pin".toList
            else "hardware".toList
          let comps' := comps ++
            [{ name := usage, ctype := compType,
               descr := gpio ++ " on ".toList ++ sk.platform_name }]
          let pins' :=
            if liStarts "GPIO".toList (gpio.map Char.toUpper) then
              dictSet pins (gpio.filter (fun c => !(c == ' ')))
                { func := usage, ptype := "digital".toList,
                  descr := usage ++ " mapped to ".toList
                    ++ gpio.filter (fun c => !(c == ' '))
                    ++ " on ".toList ++ sk.platform_name }
            else if gpio = "GND".toList || gpio = "3.3V".toList || gpio = "VCC".toList then
              dictSet pins gpio
                { func := usage, ptype := "power".toList,
                  descr := usage ++ " power rail on ".toList ++ sk.platform_name }
            else pins
          (comps', pins', added ++ [usage])
      let res := (sortPairs sk.gpio_mapping).foldl step
        ([boardComp], [], [sk.platform_name])
      (res.1, res.2.1)

/-- The `known_components` block (lines 111–127), appended unconditionally. -/
def knownComponents : List WComponent :=
  [{ name := "ESP32-S3-BOX-3".toList, ctype := "hardware".toList,
     descr := "Main development board with bread breakout".toList },
   { name := "External LED".toList, ctype := "hardware".toList,
     descr := "Red LED for blinking".toList },
   { name := "100Î© Resistor".toList, ctype := "hardware".toList,
     descr := "Current limiting resistor for LED".toList },
   { name := "Breadboard".toList, ctype := "hardware".toList,
     descr := "Breadboard for circuit connections".toList },
   { name := "GND".toList, ctype := "power".toList,
     descr := "Ground connection".toList },
   { name := "3.3V".toList, ctype := "power".toList,
     descr := "3.3V power supply".toList },
   { name := "GPIO21".toList, ctype := "pin".toList,
     descr := "GPIO pin 21 for LED control".toList }]

def lineLower (l : List Char) : List Char := l.map Char.toLower

/-- `line.replace('<box>', '|')` for the three-character separator string. -/
def replaceBox : List Char → List Char
  | [] => []
  | c :: cs =>
    if liStarts "â”‚".toList (c :: cs) then '|' :: replaceBox (cs.drop 2)
    else c :: replaceBox cs
termination_by l => l.length
decreasing_by
  · simp only [List.length_cons, List.length_drop]
    omega
  · simp

/-- Connection table header detection. -/
def isTableHeader (line : List Char) : Bool :=
  (liInfix "component".toList (lineLower line)
    && (liInfix "pin".toList (lineLower line) || liInfix "wire".toList (lineLower line)))
  || liInfix "wiring connection table".toList (lineLower line)

def tableAnode : WConnection :=
  { src := "External LED".toList, dst := "100Î© Resistor".toList,
    pin := "Anode (+)".toList, ctype := "electrical".toList,
    descr := "LED anode connected to 100Î© resistor".toList }

def tableCathode : WConnection :=
  { src := "External LED".toList, dst := "GND".toList,
    pin := "Cathode (-)".toList, ctype := "electrical".toList,
    descr := "LED cathode connected to GND".toList }

def tableT1 : WConnection :=
  { src := "100Î© Resistor".toList, dst := "GPIO21".toList,
    pin := "Terminal 1".toList, ctype := "electrical".toList,
    descr := "Resistor terminal 1 connected to GPIO21".toList }

def tableT2 : WConnection :=
  { src := "100Î© Resistor".toList, dst := "External LED".toList,
    pin := "Terminal 2".toList, ctype := "electrical".toList,
    descr := "Resistor terminal 2 connected to LED anode".toList }

/-- One table row (lines 142–188): split on the separator, trim cells, skip
header/separator rows, synthesize LED/resistor records. -/
def tableRowConns (line : List Char) : List WConnection :=
  let clean := pstrip (replaceBox line)
  if liInfix "|".toList clean && (splitCh '|' clean).length ≥ 2 then
    match (splitCh '|' clean).map pstrip with
    | p0 :: p1 :: _ =>
      if !p0.isEmpty && !p1.isEmpty
          && !(["component".toList, "---".toList, "pin connection".toList,
                "".toList].any (fun skip => liInfix skip (lineLower p0))) then
        if liInfix "External LED".toList p0 || p0.isEmpty then
          if liInfix "(+) Anode".toList p1 then [tableAnode]
          else if liInfix "(-) Cathode".toList p1 then [tableCathode]
          else []
        else if liInfix "Resistor".toList p0 then
          if liInfix "Terminal 1".toList p1 then [tableT1]
          else if liInfix "Terminal 2".toList p1 then [tableT2]
          else []
        else []
      else []
    | _ => []
  else []

def proseCathodeGpio : WConnection :=
  { src := "External LED".toList, dst := "GPIO21".toList,
    pin := "Cathode (-)".toList, ctype := "electrical".toList,
    descr := "LED cathode connected to GPIO21".toList }

def proseAnodeRes : WConnection :=
  { src := "External LED".toList, dst := "100Î© Resistor".toList,
    pin := "Anode (+)".toList, ctype := "electrical".toList,
    descr := "LED anode connected to 100Î© resistor".toList }

def proseResGpio : WConnection :=
  { src := "100Î© Resistor".toList, dst := "GPIO21".toList,
    pin := "One end".toList, ctype := "electrical".toList,
    descr := "Resistor connected to GPIO21".toList }

/-- The `'connected to'` prose pass (lines 191–217). -/
def proseConns (line : List Char) : List WConnection :=
  let ll := lineLower line
  if liInfix "led cathode".toList ll && liInfix "gpio 21".toList ll then [proseCathodeGpio]
  else if liInfix "led anode".toList ll && liInfix "resistor".toList ll then [proseAnodeRes]
  else if liInfix "resistor".toList ll
      && (liInfix "gpio21".toList ll || liInfix "gpio 21".toList ll) then [proseResGpio]
  else []

/-- One iteration of the line loop (state: `in_connection_table`, the
accumulated connections). -/
def scanStep (st : Bool × List WConnection) (rawLine : List Char) :
    Bool × List WConnection :=
  let line := pstrip rawLine
  if isTableHeader line then (true, st.2)
  else if st.1 && (liInfix "â”‚".toList line || liInfix "|".toList line) then
    (st.1, st.2 ++ tableRowConns line)
  else if liInfix "connected to".toList (lineLower line) then
    (st.1, st.2 ++ proseConns line)
  else st

def cannedAnode : WConnection :=
  { src := "External LED".toList, dst := "100Î© Resistor".toList,
    pin := "Anode (+)".toList, ctype := "electrical".toList,
    descr := "LED anode connected to current limiting resistor".toList }

def cannedCathode : WConnection :=
  { src := "External LED".toList, dst := "GND".toList,
    pin := "Cathode (-)".toList, ctype := "electrical".toList,
    descr := "LED cathode connected to ground".toList }

def cannedRes : WConnection :=
  { src := "100Î© Resistor".toList, dst := "GPIO21".toList,
    pin := "Terminal 1".toList, ctype := "electrical".toList,
    descr := "Resistor connected to GPIO21 output pin".toList }

def cannedPin : PinInfo :=
  { func := "LED Control".toList, ptype := "digital_output".toList,
    descr := "GPIO pin 21 configured as digital output for LED blinking".toList }

/-- Result of `parse_wiring_diagram_text`. -/
structure ParseResult where
  components : List WComponent
  connections : List WConnection
  pin_mappings : List (List Char × PinInfo)

/-- The fallback-seeding keyword test (line 221): `("LED" in text and "GPIO"
in text) or ("External LED" in text and "GPIO21" in text)`. -/
def ledGpioHeuristic (diagramText : List Char) : Bool :=
  (liInfix "LED".toList diagramText && liInfix "GPIO".toList diagramText)
  || (liInfix "External LED".toList diagramText && liInfix "GPIO21".toList diagramText)

/-- `parse_wiring_diagram_text(diagram_text, platform)`. -/
def parseWiringDiagramText (diagramText : List Char) (platform : Option (List Char)) :
    ParseResult :=
  let seeded := seedPlatform platform
  let components := seeded.1 ++ knownComponents
  let scan := (splitCh '\n' diagramText).foldl scanStep (false, [])
  if ledGpioHeuristic diagramText then
    { components := components,
      connections := scan.2 ++ [cannedAnode, cannedCathode, cannedRes],
      pin_mappings := dictSet seeded.2 "GPIO21".toList cannedPin }
  else
    { components := components, connections := scan.2, pin_mappings := seeded.2 }

theorem parse_components (t : List Char) (p : Option (List Char)) :
    (parseWiringDiagramText t p).components = (seedPlatform p).1 ++ knownComponents := by
  simp only [parseWiringDiagramText]
  split
  · rfl
  · rfl

theorem parse_fallback (t : List Char) (p : Option (List Char))
    (h : ledGpioHeuristic t = true) :
    (parseWiringDiagramText t p).connections
        = ((splitCh '\n' t).foldl scanStep (false, [])).2
          ++ [cannedAnode, cannedCathode, cannedRes]
    ∧ (parseWiringDiagramText t p).pin_mappings
        = dictSet (seedPlatform p).2 "GPIO21".toList cannedPin := by
  simp only [parseWiringDiagramText, h]
  exact ⟨rfl, rfl⟩

theorem find?_mapUpdate (d : List (List Char × PinInfo)) (k : List Char) (v : PinInfo)
    (hin : d.any (fun p => p.1 == k) = true) :
    (d.map (fun p => if p.1 == k then (k, v) else p)).find? (fun p => p.1 == k)
      = some (k, v) := by
  induction d with
  | nil => simp at hin
  | cons a as ih =>
    by_cases ha : (a.1 == k) = true
    · have haeq : a.1 = k := by simpa using ha
      have hmap : (a :: as).map (fun p => if p.1 == k then (k, v) else p)
          = (k, v) :: as.map (fun p => if p.1 == k then (k, v) else p) := by
        simp [List.map_cons, haeq]
      rw [hmap]
      exact List.find?_cons_of_pos _ (by simp)
    · have ha' : (a.1 == k) = false := by simpa using ha
      have hane : ¬a.1 = k := by simpa using ha'
      have hmap : (a :: as).map (fun p => if p.1 == k then (k, v) else p)
          = a :: as.map (fun p => if p.1 == k then (k, v) else p) := by
        simp [List.map_cons, hane]
      rw [hmap, List.find?_cons_of_neg _ (by simp [ha'])]
      have hin' : as.any (fun p => p.1 == k) = true := by
        have hthis := hin
        rw [List.any_cons, ha', Bool.false_or] at hthis
        exact hthis
      exact ih hin'

theorem find?_append_last (k : List Char) (v : PinInfo) (d : List (List Char × PinInfo))
    (hall : ∀ p ∈ d, (p.1 == k) = false) :
    (d ++ [(k, v)]).find? (fun p => p.1 == k) = some (k, v) := by
  induction d with
  | nil => exact List.find?_cons_of_pos _ (by simp)
  | cons a as ih =>
    rw [List.cons_append,
      List.find?_cons_of_neg _ (by simp [hall a (List.mem_cons_self _ _)])]
    exact ih (fun p hp => hall p (List.mem_cons_of_mem _ hp))

theorem pinLookup_dictSet (d : List (List Char × PinInfo)) (k : List Char) (v : PinInfo) :
    pinLookup (dictSet d k v) k = some v := by
  unfold pinLookup dictSet
  by_cases hin : d.any (fun p => p.1 == k) = true
  · rw [if_pos hin, find?_mapUpdate d k v hin]
    rfl
  · rw [if_neg hin]
    have hall : ∀ p ∈ d, (p.1 == k) = false := by
      intro p hp
      cases hpk : (p.1 == k) with
      | false => rfl
      | true => exact absurd (List.any_eq_true.mpr ⟨p, hp, hpk⟩) hin
    rw [find?_append_last k v d hall]
    rfl

/-- **C3** (counterexample to the claim as stated).  With a resolved
platform, the board name `ESP32-S3-BOX-3` is seeded by the platform pass and
appended again by the known-components block, so it occurs twice. -/
theorem claim_C3_counterexample :
    ((parseWiringDiagramText [] (some "esp32-s3-box-3".toList)).components.map
        (fun c => c.name)).count "ESP32-S3-BOX-3".toList = 2 := by decide

/-- **C3** (amended).  Component names are unique whenever no platform
seeding occurred (no platform given, or the identifier does not resolve);
with a resolved platform the board name is duplicated. -/
theorem claim_C3_component_names_unique (t : List Char) (p : Option (List Char))
    (h : p = none ∨ ∀ s, p = some s → getSkillset s = none) :
    ((parseWiringDiagramText t p).components.map (fun c => c.name)).Nodup := by
  have hseed : seedPlatform p = ([], []) := by
    rcases h with rfl | h
    · rfl
    · cases p with
      | none => rfl
      | some s =>
        show (match getSkillset s with
          | none => (([] : List WComponent), ([] : List (List Char × PinInfo)))
          | some sk => _) = _
        rw [h s rfl]
  rw [parse_components, hseed]
  show (knownComponents.map (fun c => c.name)).Nodup
  decide

/-- Witness for `claim_C3_component_names_unique` with an unresolvable
platform identifier. -/
theorem claim_C3_witness :
    ((some "arduino-mega-2560-r3".toList : Option (List Char)) = none ∨
      ∀ s, (some "arduino-mega-2560-r3".toList : Option (List Char)) = some s →
        getSkillset s = none) ∧
    ((parseWiringDiagramText "LED on GPIO21".toList
        (some "arduino-mega-2560-r3".toList)).components.map (fun c => c.name)).Nodup :=
  ⟨Or.inr (fun s hs => by
      injection hs with hs'
      rw [← hs']
      decide),
   claim_C3_component_names_unique _ _ (Or.inr (fun s hs => by
      injection hs with hs'
      rw [← hs']
      decide))⟩

/-- **C8** (confirmed).  Any wiring text satisfying the LED/GPIO keyword
heuristic (in particular any text containing both `External LED` and
`GPIO21`, which contain `LED` and `GPIO` as substrings) gets the three
canned connection records and the `GPIO21` pin mapping typed
`digital_output`.  (In the source file the resistor name is the mojibake
`100Î© Resistor`.) -/
theorem claim_C8_canned_connections (t : List Char) (p : Option (List Char))
    (h : ledGpioHeuristic t = true) :
    cannedAnode ∈ (parseWiringDiagramText t p).connections
    ∧ cannedCathode ∈ (parseWiringDiagramText t p).connections
    ∧ cannedRes ∈ (parseWiringDiagramText t p).connections
    ∧ pinLookup (parseWiringDiagramText t p).pin_mappings "GPIO21".toList = some cannedPin
    ∧ cannedPin.ptype = "digital_output".toList := by
  obtain ⟨hc, hp⟩ := parse_fallback t p h
  rw [hc, hp]
  refine ⟨?_, ?_, ?_, pinLookup_dictSet _ _ _, rfl⟩
  · exact List.mem_append_right _ (by simp)
  · exact List.mem_append_right _ (by simp)
  · exact List.mem_append_right _ (by simp)

/-- Witness for `claim_C8_canned_connections` on scenario D's text. -/
theorem claim_C8_witness :
    ledGpioHeuristic "Connect External LED through resistor to GPIO21".toList = true ∧
    (cannedAnode ∈ (parseWiringDiagramText
        "Connect External LED through resistor to GPIO21".toList none).connections
    ∧ cannedCathode ∈ (parseWiringDiagramText
        "Connect External LED through resistor to GPIO21".toList none).connections
    ∧ cannedRes ∈ (parseWiringDiagramText
        "Connect External LED through resistor to GPIO21".toList none).connections
    ∧ pinLookup (parseWiringDiagramText
        "Connect External LED through resistor to GPIO21".toList none).pin_mappings
        "GPIO21".toList = some cannedPin
    ∧ cannedPin.ptype = "digital_output".toList) :=
  ⟨by decide, claim_C8_canned_connections _ none (by decide)⟩

/-- **C10** (confirmed).  For every diagram text and platform argument the
parser returns (the embedding is a total function; the only fallible step,
the skillset lookup, is wrapped in `try/except`), and its components list
contains all seven canned entries and is never empty.  (The resistor entry's
name is the source's mojibake `100Î© Resistor`.) -/
theorem claim_C10_components_always_seeded (t : List Char) (p : Option (List Char)) :
    "ESP32-S3-BOX-3".toList ∈ (parseWiringDiagramText t p).components.map (fun c => c.name)
    ∧ "External LED".toList ∈ (parseWiringDiagramText t p).components.map (fun c => c.name)
    ∧ "100Î© Resistor".toList ∈ (parseWiringDiagramText t p).components.map (fun c => c.name)
    ∧ "Breadboard".toList ∈ (parseWiringDiagramText t p).components.map (fun c => c.name)
    ∧ "GND".toList ∈ (parseWiringDiagramText t p).components.map (fun c => c.name)
    ∧ "3.3V".toList ∈ (parseWiringDiagramText t p).components.map (fun c => c.name)
    ∧ "GPIO21".toList ∈ (parseWiringDiagramText t p).components.map (fun c => c.name)
    ∧ (parseWiringDiagramText t p).components ≠ [] := by
  rw [parse_components, List.map_append]
  refine ⟨?_, ?_, ?_, ?_, ?_, ?_, ?_, ?_⟩
  · exact List.mem_append_right _ (by decide)
  · exact List.mem_append_right _ (by decide)
  · exact List.mem_append_right _ (by decide)
  · exact List.mem_append_right _ (by decide)
  · exact List.mem_append_right _ (by decide)
  · exact List.mem_append_right _ (by decide)
  · exact List.mem_append_right _ (by decide)
  · intro hnil
    have := congrArg List.length hnil
    simp [knownComponents] at this

/-! ## Pipeline step graph: `agent/graph.py`, `read_design` and the
`StateGraph` wiring (lines 397–418) -/

/-- The nodes of the step graph (`__start__` plus the four added nodes). -/
inductive GNode where
  | start
  | read_design
  | generate_code
  | generate_diagram
  | assemble_project
deriving DecidableEq, Fintype

/-- `read_design`: `file` is the design file's content (`none` when
`state.design_file` is empty or the path does not exist); raising
`ValueError` is modelled as `Except.error` (messages abbreviated, the claim
does not depend on their text). -/
def readDesignStep (file : Option (List Char)) : Except (List Char) (List Char) :=
  match file with
  | none => Except.error "Design file not found".toList
  | some c =>
    let design := pstrip c
    if design.isEmpty then Except.error "Design file is empty".toList
    else Except.ok design

/-- The `add_edge` calls, in source order, with the
`config.GENERATE_WIRING_DIAGRAM` flag as a parameter. -/
def graphEdges (wiring : Bool) : List (GNode × GNode) :=
  [(GNode.start, GNode.read_design), (GNode.read_design, GNode.generate_code)]
  ++ (if wiring then
        [(GNode.read_design, GNode.generate_diagram),
         (GNode.generate_diagram, GNode.assemble_project)]
      else [])
  ++ [(GNode.generate_code, GNode.assemble_project)]

/-- A path through the compiled graph: starts at `__start__` and follows
edges. -/
def ValidPath (wiring : Bool) (p : List GNode) : Prop :=
  p.head? = some GNode.start ∧ p.Chain' (fun a b => (a, b) ∈ graphEdges wiring)

/-- Modelled from the spec: the graph execution engine is the third-party
langgraph library, not code of this repository; §5 fixes the execution
shape as strictly sequential (design read → code generation → optional
diagram generation → assembly) with `a failure at any step aborts the
remainder of that run`.  The result lists the nodes invoked. -/
def runPipeline (wiring : Bool) (file : Option (List Char)) : List GNode :=
  GNode.read_design ::
    (match readDesignStep file with
     | Except.error _ => []
     | Except.ok _ =>
       [GNode.generate_code]
         ++ (if wiring then [GNode.generate_diagram] else [])
         ++ [GNode.assemble_project])

theorem edge_into_generation (wiring : Bool) :
    ∀ x y : GNode, (x, y) ∈ graphEdges wiring →
      (y = GNode.generate_code ∨ y = GNode.generate_diagram) → x = GNode.read_design := by
  cases wiring <;> decide

/-- **C9** (confirmed; execution semantics spec-modelled).  A missing or
blank design file makes `read_design` raise; no generation node is invoked
in such a run; and on every path of the step graph a generation node is
preceded by `read_design`. -/
theorem claim_C9_read_design_gates_generation (wiring : Bool) (file : Option (List Char))
    (h : file = none ∨ ∃ c, file = some c ∧ pstrip c = []) :
    (∃ e, readDesignStep file = Except.error e)
    ∧ GNode.generate_code ∉ runPipeline wiring file
    ∧ GNode.generate_diagram ∉ runPipeline wiring file
    ∧ ∀ p : List GNode, ValidPath wiring p →
        ∀ j, ∀ hj : j < p.length,
          (p.get ⟨j, hj⟩ = GNode.generate_code ∨ p.get ⟨j, hj⟩ = GNode.generate_diagram) →
          ∃ i, ∃ hi : i < p.length, i < j ∧ p.get ⟨i, hi⟩ = GNode.read_design := by
  have herr : ∃ e, readDesignStep file = Except.error e := by
    rcases h with rfl | ⟨c, rfl, hc⟩
    · exact ⟨_, rfl⟩
    · refine ⟨"Design file is empty".toList, ?_⟩
      simp [readDesignStep, hc]
  refine ⟨herr, ?_, ?_, ?_⟩
  · obtain ⟨e, he⟩ := herr
    simp [runPipeline, he]
  · obtain ⟨e, he⟩ := herr
    simp [runPipeline, he]
  · intro p hvp j hj hgen
    have hj0 : j ≠ 0 := by
      intro h0
      subst h0
      have hstart : p.get ⟨0, hj⟩ = GNode.start := by
        cases p with
        | nil => simp at hj
        | cons a as =>
          have : a = GNode.start := by
            have := hvp.1
            simpa using this
          simpa using this
      rcases hgen with hg | hg <;> rw [hstart] at hg <;> exact absurd hg (by decide)
    obtain ⟨j', rfl⟩ : ∃ j', j = j' + 1 := ⟨j - 1, by omega⟩
    have hj' : j' < p.length - 1 := by omega
    have hedge : (p.get ⟨j', by omega⟩, p.get ⟨j' + 1, hj⟩) ∈ graphEdges wiring := by
      have := (List.chain'_iff_get.mp hvp.2) j' hj'
      exact this
    have hsrc : p.get ⟨j', by omega⟩ = GNode.read_design :=
      edge_into_generation wiring _ _ hedge hgen
    exact ⟨j', by omega, by omega, hsrc⟩

/-- Witness for `claim_C9_read_design_gates_generation` at a blank design
file with diagram generation enabled. -/
theorem claim_C9_witness :
    ((some "   ".toList : Option (List Char)) = none
      ∨ ∃ c, (some "   ".toList : Option (List Char)) = some c ∧ pstrip c = [])
    ∧ ((∃ e, readDesignStep (some "   ".toList) = Except.error e)
      ∧ GNode.generate_code ∉ runPipeline true (some "   ".toList)
      ∧ GNode.generate_diagram ∉ runPipeline true (some "   ".toList)
      ∧ ∀ p : List GNode, ValidPath true p →
          ∀ j, ∀ hj : j < p.length,
            (p.get ⟨j, hj⟩ = GNode.generate_code ∨ p.get ⟨j, hj⟩ = GNode.generate_diagram) →
            ∃ i, ∃ hi : i < p.length, i < j ∧ p.get ⟨i, hi⟩ = GNode.read_design) :=
  ⟨Or.inr ⟨_, rfl, by decide⟩,
   claim_C9_read_design_gates_generation true (some "   ".toList)
     (Or.inr ⟨_, rfl, by decide⟩)⟩

end EspAgent
